import Mathlib

/-!
# AWS Signature Version 4 request signing (`aws.go`)

A shallow embedding of the Go package `main` of `aws.go` and a verification of
its specification.

Go strings and byte slices are lists of bytes.  A Go `map` is an association
list with pairwise distinct keys; the order of the list is the order in which
`range` visits the map, which Go leaves unspecified, so every statement about a
map holds for every order.  Functions that can fail return an `Outcome`: a
result, a Go `error`, or a run-time panic.

The Go standard library functions the package calls are modelled from their
documented behaviour (`path.Clean`, `strings.Split`, `sort.Strings`,
`url.ParseQuery`, `time.Time.Format`, `crypto/hmac`).  SHA-256 itself, the
parser of `time.Parse` and the Unicode tables behind `strings.ToLower` and
`strings.TrimSpace` are taken as parameters (`Prims`); `sha256Ref` writes
SHA-256 out after FIPS 180-4 for the one place where a digest is computed.

Of package `glacier` only the test of the tree hash is at hand; the tree hash
is modelled from the specification.
-/

namespace Aws

/-! ## Bytes and strings -/

/-- A byte. -/
abbrev Byte := Fin 256

/-- A Go `string` or `[]byte`: a sequence of bytes. -/
abbrev Str := List Byte

/-- The byte of an ASCII character. -/
def byteOfChar (c : Char) : Byte := Fin.ofNat c.toNat

/-- The bytes of an ASCII string literal. -/
def str (s : String) : Str := s.toList.map byteOfChar

/-- The outcome of a Go call that returns `(value, error)`. -/
inductive Err where
  /-- `url.ParseQuery` rejected the raw query. -/
  | query
  /-- Reading the request body failed. -/
  | read
  /-- `time.Parse` rejected the date. -/
  | date
  deriving DecidableEq, Repr

/-- What a call does: it returns a value with a nil error, returns a non-nil
error (with nil values), or panics. -/
inductive Outcome (α : Type) where
  | ok (a : α)
  | error (e : Err)
  | fault
  deriving DecidableEq, Repr

/-- The value a call returns next to its error: `none` is the nil slice. -/
def Outcome.value {α : Type} : Outcome α → Option α
  | .ok a => some a
  | .error _ => none
  | .fault => none

/-- The error a call returns: `none` is the nil error (and a panic returns nothing). -/
def Outcome.err {α : Type} : Outcome α → Option Err
  | .ok _ => none
  | .error e => some e
  | .fault => none

/-! ## Constants and tables -/

/-- Go: `hex = "0123456789ABCDEF"`. -/
def hex : Str := str "0123456789ABCDEF"

/-- Go: `lchex = "0123456789abcdef"`. -/
def lchex : Str := str "0123456789abcdef"

/-- The string `u` of `init`. -/
def unreservedChars : Str :=
  str "ABCDEFGHIJKLMNOPQRSTUVWXYZabcdefghijklmnopqrstuvwxyz01234567890-_.~"

/-- Go: `unreserved = make([]bool, 128)` after `init` has run:
`for _, c := range u { unreserved[c] = true }`. -/
def unreserved : List Bool :=
  unreservedChars.foldl (fun t c => t.set c.val true) (List.replicate 128 false)

/-- The test `c > 127 || !unreserved[c]` of `encode`. -/
def mustEscape (c : Byte) : Bool :=
  decide (c.val > 127) || !(unreserved.getD c.val false)

/-- The second loop of `encode`: `e[:ei]` is the output written so far. -/
def encodeLoop : Str → Str → Str
  | [], e => e
  | c :: s, e =>
    if mustEscape c then
      encodeLoop s (e ++ [byteOfChar '%', hex.getD (c.val >>> 4) 0, hex.getD (c.val &&& 0xF) 0])
    else
      encodeLoop s (e ++ [c])

/-- Go: `func encode(s string) string`.  The first loop looks for a byte to
escape; when there is none the input is returned as it is. -/
def encode (s : Str) : Str :=
  if s.any mustEscape then encodeLoop s [] else s

/-- Go: `func toLcHex(x []byte) []byte`: `z[2*i]` and `z[2*i+1]` for each `i`. -/
def toLcHex : Str → Str
  | [] => []
  | v :: x => lchex.getD ((v.val &&& 0xf0) >>> 4) 0 :: lchex.getD (v.val &&& 0x0f) 0 :: toLcHex x

/-- The verb `%x` of `fmt.Fprintf` on a byte slice: two lowercase hexadecimal
digits per byte. -/
def fmtHex (x : Str) : Str :=
  x.flatMap (fun v => [lchex.getD (v.val / 16) 0, lchex.getD (v.val % 16) 0])

/-! ## Time -/

/-- A `time.Time` as `Format` sees it: the calendar date and clock time in the
time's own location.  The year of a `time.Time` is any integer. -/
structure Time where
  year : Int
  month : Nat
  day : Nat
  hour : Nat
  minute : Nat
  second : Nat
  month_ok : 1 ≤ month ∧ month ≤ 12
  day_ok : 1 ≤ day ∧ day ≤ 31
  hour_ok : hour < 24
  minute_ok : minute < 60
  second_ok : second < 60

/-- The decimal digit `d`. -/
def digit (d : Nat) : Byte := Fin.ofNat (48 + d % 10)

/-- The decimal digits of `n`, most significant first, written in front of
`acc`; `fuel` bounds the number of digits. -/
def decimalAux : Nat → Nat → Str → Str
  | 0, _, acc => acc
  | fuel + 1, n, acc =>
    if n < 10 then digit n :: acc else decimalAux fuel (n / 10) (digit n :: acc)

/-- The decimal numeral of `n`.  The numbers formatted are Go `int`s, below
`2 ^ 63`, which have at most 19 digits. -/
def decimal (n : Nat) : Str := decimalAux 20 n []

/-- Go: `appendInt(b, x, width)` of package `time`: a minus sign for a negative
`x`, then the decimal digits of `|x|` padded with zeros on the left to at least
`width` digits. -/
def appendInt (x : Int) (width : Nat) : Str :=
  let ds := decimal x.natAbs
  (if x < 0 then [byteOfChar '-'] else []) ++ List.replicate (width - ds.length) (byteOfChar '0') ++ ds

/-- Go: `t.Format(iSO8601BasicFormatShort)`, the layout `"20060102"`: the
chunks `2006` (year, width 4), `01` (month, width 2), `02` (day, width 2). -/
def formatShort (t : Time) : Str :=
  appendInt t.year 4 ++ appendInt t.month 2 ++ appendInt t.day 2

/-- Go: `d.Format("20060102T150405Z")`: the chunks `2006`, `01`, `02`, the
literal `T`, the chunks `15` (hour), `04` (minute), `05` (second), each of width
2, and the literal `Z` (a `Z` not followed by `07` is no layout element). -/
def formatBasic (t : Time) : Str :=
  appendInt t.year 4 ++ appendInt t.month 2 ++ appendInt t.day 2 ++ str "T" ++
    appendInt t.hour 2 ++ appendInt t.minute 2 ++ appendInt t.second 2 ++ str "Z"

/-! ## Standard library primitives taken as parameters -/

/-- The parts of the Go standard library that are not modelled step by step. -/
structure Prims where
  /-- `crypto/sha256`: the digest of a message. -/
  sha256 : Str → Str
  /-- A SHA-256 digest has `sha256.Size = 32` bytes. -/
  sha256_size : ∀ m, (sha256 m).length = 32
  /-- `time.Parse(time.RFC1123, date)`: the parsed time, or `none` for an error. -/
  parseRFC1123 : Str → Option Time
  /-- `strings.Map(unicode.ToLower, s)`: what `strings.ToLower` does to a string
  that has a byte outside ASCII. -/
  unicodeToLower : Str → Str
  /-- `strings.TrimFunc(s, unicode.IsSpace)`. -/
  unicodeTrimSpace : Str → Str
  /-- `strings.TrimRightFunc(s, unicode.IsSpace)`. -/
  unicodeTrimRightSpace : Str → Str

/-! ## HMAC and the signing key -/

/-- The block size of SHA-256 in bytes. -/
def blockSize : Nat := 64

/-- The key of `hmac.New` as it is laid out in a block: a key longer than a
block is replaced by its digest, and the key is padded with zero bytes. -/
def hmacKeyBlock (P : Prims) (key : Str) : Str :=
  let k := if key.length > blockSize then P.sha256 key else key
  k ++ List.replicate (blockSize - k.length) 0

/-- XOR of every byte with a constant pad byte. -/
def xorPad (pad : Nat) (k : Str) : Str :=
  k.map (fun b => Fin.ofNat (b.val ^^^ pad))

/-- Go: `h := hmac.New(sha256.New, key); h.Write(msg); h.Sum(nil)`. -/
def hmacSHA256 (P : Prims) (key msg : Str) : Str :=
  let k := hmacKeyBlock P key
  P.sha256 (xorPad 0x5c k ++ P.sha256 (xorPad 0x36 k ++ msg))

/-- Go: `type Keys struct { Access, Secret string }`. -/
structure Keys where
  Access : Str
  Secret : Str

/-- Go: `type Region struct { Region, Name, Glacier string }`; the field
`Region` (the human readable name) is `Label` here. -/
structure Region where
  Label : Str
  Name : Str
  Glacier : Str

/-- Go: `type Signature [sha256.Size]byte`. -/
structure Signature where
  bytes : Str
  size : bytes.length = 32

/-- Go: `func NewSignature(k *Keys, t time.Time, r *Region, service string) *Signature`.
Each `h.Sum(s[:0])` is the MAC of what was written, and is the key of the next
`hmac.New`. -/
def NewSignature (P : Prims) (k : Keys) (t : Time) (r : Region) (service : Str) : Signature :=
  let k1 := hmacSHA256 P (str "AWS4" ++ k.Secret) (formatShort t)
  let k2 := hmacSHA256 P k1 r.Name
  let k3 := hmacSHA256 P k2 service
  ⟨hmacSHA256 P k3 (str "aws4_request"), P.sha256_size _⟩

/-- Go: `func (s *Signature) signStringToSign(sts []byte) []byte`. -/
def signStringToSign (P : Prims) (s : Signature) (sts : Str) : Str :=
  toLcHex (hmacSHA256 P s.bytes sts)

/-- Go: `func CreateStringToSign(cr []byte, date, cs string) ([]byte, error)`. -/
def CreateStringToSign (P : Prims) (cr date cs : Str) : Outcome Str :=
  let sts := str "AWS4-HMAC-SHA256\n"
  match P.parseRFC1123 date with
  | none => .error .date
  | some d =>
    let sts := sts ++ (formatBasic d ++ str "\n")
    let sts := sts ++ cs
    let sts := sts ++ str "\n"
    .ok (sts ++ fmtHex (P.sha256 cr))

/-! ## Sorting, maps and string helpers -/

/-- Go: `sort.Strings(a)`: `a` in ascending order of Go's string comparison,
the lexicographic order of the bytes.  Strings that compare equal are equal, so
the sorted slice does not depend on the sorting algorithm. -/
def sortStrings (a : List Str) : List Str := a.insertionSort (· ≤ ·)

/-- Go: `strings.Join(a, sep)`. -/
def join (a : List Str) (sep : Str) : Str := sep.intercalate a

/-- Go: `strings.Split(s, sep)` for a one-byte separator: the pieces of `s`
between the separators, one more than there are separators. -/
def split (sep : Byte) : Str → List Str
  | [] => [[]]
  | c :: s =>
    if c = sep then [] :: split sep s
    else
      match split sep s with
      | [] => [[c]]
      | piece :: pieces => (c :: piece) :: pieces

/-- Go: `map[string][]string` (`url.Values`, `http.Header`).  The keys of a map
are pairwise distinct (`Nodup`); the list order is the iteration order. -/
abbrev Values := List (Str × List Str)

/-- The keys of a map are pairwise distinct. -/
def Values.WellFormed (m : Values) : Prop := (m.map Prod.fst).Nodup

instance (m : Values) : Decidable m.WellFormed := by
  unfold Values.WellFormed; infer_instance

/-- Go: `m[k]`: the value of the key, the nil slice when the key is absent. -/
def Values.get (m : Values) (k : Str) : List Str :=
  match m.lookup k with
  | some vs => vs
  | none => []

/-- The map after the slice stored under `k` has been overwritten in place
(nothing changes when `k` is absent). -/
def Values.set (m : Values) (k : Str) (vs : List Str) : Values :=
  m.map (fun e => if e.1 = k then (e.1, vs) else e)

/-- Go: `m[k] = append(m[k], v)`. -/
def Values.add : Values → Str → Str → Values
  | [], k, v => [(k, [v])]
  | (k', vs) :: m, k, v =>
    if k' = k then (k', vs ++ [v]) :: m else (k', vs) :: Values.add m k v

/-! ## `path.Clean` -/

/-- The backtracking of `path.Clean` at a `..` element, on the reversed output
buffer: `last` is the byte `out.index(out.w)` just dropped, `rest` the `out.w`
bytes that remain: `for out.w > dotdot && out.index(out.w) != '/' { out.w-- }`. -/
def cleanBacktrack (dotdot : Nat) : Byte → Str → Str
  | _, [] => []
  | last, c :: rest =>
    if (c :: rest).length > dotdot ∧ last ≠ byteOfChar '/' then cleanBacktrack dotdot c rest
    else c :: rest

/-- The main loop of `path.Clean`.  `inp` is `path[r:]`, `out` the output
buffer `out.buf[:out.w]` reversed, `dotdot` the index where `..` must stop.
Every round reads at least one byte, so `len(path)` rounds are enough. -/
def cleanLoop (rooted : Bool) : Nat → Str → Str → Nat → Str
  | 0, _, out, _ => out
  | fuel + 1, inp, out, dotdot =>
    match inp with
    | [] => out
    | c :: rest =>
      if c = byteOfChar '/' then
        -- empty path element
        cleanLoop rooted fuel rest out dotdot
      else if c = byteOfChar '.' ∧ (rest = [] ∨ rest.head? = some (byteOfChar '/')) then
        -- . element
        cleanLoop rooted fuel rest out dotdot
      else if c = byteOfChar '.' ∧ rest.head? = some (byteOfChar '.') ∧
          (rest.tail = [] ∨ rest.tail.head? = some (byteOfChar '/')) then
        -- .. element: remove to last /
        if out.length > dotdot then
          match out with
          | [] => cleanLoop rooted fuel rest.tail out dotdot
          | last :: out1 => cleanLoop rooted fuel rest.tail (cleanBacktrack dotdot last out1) dotdot
        else if !rooted then
          let out1 := if out.length > 0 then byteOfChar '/' :: out else out
          let out2 := byteOfChar '.' :: byteOfChar '.' :: out1
          cleanLoop rooted fuel rest.tail out2 out2.length
        else
          cleanLoop rooted fuel rest.tail out dotdot
      else
        -- real path element: add slash if needed, copy element
        let out1 :=
          if (rooted ∧ out.length ≠ 1) ∨ (!rooted ∧ out.length ≠ 0) then byteOfChar '/' :: out
          else out
        let elem := inp.takeWhile (· ≠ byteOfChar '/')
        cleanLoop rooted fuel (inp.dropWhile (· ≠ byteOfChar '/')) (elem.reverse ++ out1) dotdot

/-- Go: `path.Clean(path)`. -/
def Clean (path : Str) : Str :=
  match path with
  | [] => str "."
  | c :: rest =>
    let rooted := decide (c = byteOfChar '/')
    let out :=
      if rooted then cleanLoop rooted path.length rest [byteOfChar '/'] 1
      else cleanLoop rooted path.length path [] 0
    if out.length = 0 then str "." else out.reverse

/-! ## The canonical URI (step 2) -/

/-- The loop `for i := len(p) - 2; i > 0; i-- { if p[i] != '/' && p[i] != '.' { ts = true; break } }`
started at index `i`. -/
def trailingSlashScan (p : Str) : Nat → Bool
  | 0 => false
  | i + 1 =>
    if p.getD (i + 1) 0 ≠ byteOfChar '/' ∧ p.getD (i + 1) 0 ≠ byteOfChar '.' then true
    else trailingSlashScan p i

/-- The flag `ts` of step 2; the path is not empty. -/
def trailingSlash (p : Str) : Bool :=
  if p.getLast? = some (byteOfChar '/') then trailingSlashScan p (p.length - 2) else false

/-- Step 2 of `CreateCanonicalRequest`: the canonical path `cp` written for
`r.URL.Path`.  Indexing `r.URL.Path[len(r.URL.Path)-1]` panics on the empty
path, and slicing `path.Clean(...)[1:]` would panic on an empty string. -/
def canonicalPath (p : Str) : Outcome Str :=
  if p.length = 0 then .fault
  else
    let ts := trailingSlash p
    if (Clean p).length < 1 then .fault
    else
      let parts := split (byteOfChar '/') ((Clean p).drop 1)
      let cp := parts.foldl (fun cp part => cp ++ (str "/" ++ encode part)) []
      .ok (if ts then cp ++ str "/" else cp)

/-! ## `url.ParseQuery` -/

/-- Go: `ishex(c)` of package `net/url`. -/
def ishex (c : Byte) : Bool :=
  (48 ≤ c.val ∧ c.val ≤ 57) ∨ (97 ≤ c.val ∧ c.val ≤ 102) ∨ (65 ≤ c.val ∧ c.val ≤ 70)

/-- Go: `unhex(c)` of package `net/url`. -/
def unhex (c : Byte) : Nat :=
  if 48 ≤ c.val ∧ c.val ≤ 57 then c.val - 48
  else if 97 ≤ c.val ∧ c.val ≤ 102 then c.val - 97 + 10
  else if 65 ≤ c.val ∧ c.val ≤ 70 then c.val - 65 + 10
  else 0

/-- Go: `url.QueryUnescape(s)`: `%XY` becomes the byte with hexadecimal value
`XY`, `+` becomes a space; a `%` that is not followed by two hexadecimal digits
is an error (`none`). -/
def QueryUnescape : Str → Option Str
  | [] => some []
  | c :: s =>
    if c = byteOfChar '%' then
      match s with
      | a :: b :: rest =>
        if ishex a ∧ ishex b then
          (QueryUnescape rest).map (fun t => Fin.ofNat (unhex a <<< 4 ||| unhex b) :: t)
        else none
      | _ => none
    else if c = byteOfChar '+' then
      (QueryUnescape s).map (fun t => byteOfChar ' ' :: t)
    else
      (QueryUnescape s).map (fun t => c :: t)

/-- Go: `strings.Cut(s, sep)` for a one-byte separator: the text before the
first separator and the text after it (all of `s` and the empty string when
there is no separator). -/
def cut (sep : Byte) (s : Str) : Str × Str :=
  (s.takeWhile (· ≠ sep), (s.dropWhile (· ≠ sep)).drop 1)

/-- The loop `for query != ""` of `parseQuery` in `net/url`: `m` is the map
filled so far and `failed` tells whether an error has been recorded.  A piece
with a semicolon (an error since Go 1.17) or a bad escape records an error and
is skipped; an empty piece is skipped.  Every round shortens `query`, so
`len(query)` rounds are enough. -/
def parseQueryLoop : Nat → Str → Values → Bool → Values × Bool
  | 0, _, m, failed => (m, failed)
  | fuel + 1, query, m, failed =>
    if query = [] then (m, failed)
    else
      let key := (cut (byteOfChar '&') query).1
      let query1 := (cut (byteOfChar '&') query).2
      if key.contains (byteOfChar ';') then parseQueryLoop fuel query1 m true
      else if key = [] then parseQueryLoop fuel query1 m failed
      else
        match QueryUnescape (cut (byteOfChar '=') key).1 with
        | none => parseQueryLoop fuel query1 m true
        | some k =>
          match QueryUnescape (cut (byteOfChar '=') key).2 with
          | none => parseQueryLoop fuel query1 m true
          | some v => parseQueryLoop fuel query1 (m.add k v) failed

/-- Go: `url.ParseQuery(query)`, as `CreateCanonicalRequest` uses it: the map,
or `none` when the error is not nil. -/
def ParseQuery (query : Str) : Option Values :=
  let res := parseQueryLoop query.length query [] false
  if res.2 then none else some res.1

/-! ## The canonical query string (step 3) -/

/-- The inner loop `for j := range parameters` of step 3 for the key `k`,
started at index `j` with `cqs` built so far. -/
def queryInner (k : Str) : List Str → Nat → Str → Str
  | [], _, cqs => cqs
  | p :: ps, j, cqs =>
    let cqs1 := if j > 0 then cqs ++ str "&" else cqs
    queryInner k ps (j + 1) (cqs1 ++ encode k ++ str "=" ++ encode p)

/-- The outer loop `for i := range keys` of step 3, started at index `i`.
`sort.Strings(parameters)` sorts the slice of the local map `query` in place;
every key is visited once. -/
def queryOuter (query : Values) : List Str → Nat → Str → Str
  | [], _, cqs => cqs
  | k :: ks, i, cqs =>
    let cqs1 := if i > 0 then cqs ++ str "&" else cqs
    let parameters := sortStrings (query.get k)
    queryOuter query ks (i + 1) (queryInner k parameters 0 cqs1)

/-- Step 3 of `CreateCanonicalRequest`: the canonical query string `cqs` of a
parsed query. -/
def canonicalQuery (query : Values) : Str :=
  let keys := sortStrings (query.map Prod.fst)
  queryOuter query keys 0 []

/-! ## The canonical headers (steps 4 and 5) -/

/-- Go: the table `asciiSpace` of package `strings`. -/
def asciiSpace (c : Byte) : Bool := (str "\t\n\x0b\x0c\r ").contains c

/-- The second loop of `strings.TrimSpace`, on the reversed string: drop ASCII
space from the end; at a byte outside ASCII hand over to
`TrimRightFunc(s, unicode.IsSpace)`. -/
def trimSpaceStop (P : Prims) : Str → Str
  | [] => []
  | c :: r =>
    if c.val ≥ 128 then P.unicodeTrimRightSpace (c :: r).reverse
    else if asciiSpace c then trimSpaceStop P r
    else (c :: r).reverse

/-- Go: `strings.TrimSpace(s)`.  The first loop drops ASCII space from the
start; at a byte outside ASCII it hands over to `TrimFunc(s, unicode.IsSpace)`. -/
def TrimSpace (P : Prims) : Str → Str
  | [] => []
  | c :: s =>
    if c.val ≥ 128 then P.unicodeTrimSpace (c :: s)
    else if asciiSpace c then TrimSpace P s
    else trimSpaceStop P (c :: s).reverse

/-- Go: `strings.ToLower(s)`: on an ASCII string the letters `A` to `Z` become
`a` to `z`; any other string goes through the Unicode tables. -/
def ToLower (P : Prims) (s : Str) : Str :=
  if s.all (fun c => c.val < 128) then
    s.map (fun c => if 65 ≤ c.val ∧ c.val ≤ 90 then Fin.ofNat (c.val + 32) else c)
  else P.unicodeToLower s

/-- The first loop of step 4, `for i := range r.Header`: the lowercased,
trimmed header names, and `headersMap`, which sends such a name to the header
name it was made from (a later assignment replaces an earlier one: the newest
entry stands first). -/
def collectHeaders (P : Prims) : Values → List Str → List (Str × Str) → List Str × List (Str × Str)
  | [], headers, headersMap => (headers, headersMap)
  | (i, _) :: rest, headers, headersMap =>
    let header := ToLower P (TrimSpace P i)
    collectHeaders P rest (headers ++ [header]) ((header, i) :: headersMap)

/-- Go: `headersMap[name]`, the empty string when the name is absent. -/
def headersMapGet (headersMap : List (Str × Str)) (name : Str) : Str :=
  match headersMap.lookup name with
  | some i => i
  | none => []

/-- The second loop of step 4, `for i := range headers`: `crb` is the buffer
and `hdr` the header map of the request, whose value slices
`sort.Strings(values)` sorts in place. -/
def headerLines (host : Str) (headersMap : List (Str × Str)) : List Str → Str → Values → Str × Values
  | [], crb, hdr => (crb, hdr)
  | name :: names, crb, hdr =>
    let crb1 := crb ++ name ++ str ":"
    if name = str "host" then
      headerLines host headersMap names (crb1 ++ host ++ str "\n") hdr
    else
      let key := headersMapGet headersMap name
      let values := sortStrings (hdr.get key)
      headerLines host headersMap names (crb1 ++ join values (str ",") ++ str "\n") (hdr.set key values)

/-! ## The request and `CreateCanonicalRequest` -/

/-- The body of a request as `io.Copy` sees it. -/
inductive Body where
  /-- `r.Body == nil`. -/
  | absent
  /-- Reading yields `data` and then end-of-stream. -/
  | reads (data : Str)
  /-- Reading yields `data` and then an error. -/
  | fails (data : Str)
  deriving DecidableEq, Repr

/-- The fields of `*http.Request` that `CreateCanonicalRequest` reads. -/
structure Request where
  Method : Str
  /-- Go: `r.URL.Path`. -/
  Path : Str
  /-- Go: `r.URL.RawQuery`. -/
  RawQuery : Str
  Header : Values
  Host : Str
  Body : Body

/-- The run of `CreateCanonicalRequest(r)`: what it returns (the canonical
request and the signed header names) and the header map `r.Header` as the call
leaves it. -/
def runCanonicalRequest (P : Prims) (r : Request) : Outcome (Str × List Str) × Values :=
  -- 1
  let crb := r.Method ++ str "\n"
  -- 2
  match canonicalPath r.Path with
  | .fault => (.fault, r.Header)
  | .error e => (.error e, r.Header)
  | .ok cp =>
    let crb := crb ++ cp ++ str "\n"
    -- 3
    match ParseQuery r.RawQuery with
    | none => (.error .query, r.Header)
    | some query =>
      let cqs := canonicalQuery query
      let crb := (if cqs.length > 0 then crb ++ cqs else crb) ++ str "\n"
      -- 4
      let collected := collectHeaders P r.Header [] []
      let headers := sortStrings (collected.1 ++ [str "host"])
      let lines := headerLines r.Host collected.2 headers crb r.Header
      let crb := lines.1 ++ str "\n"
      -- 5
      let crb := crb ++ join headers (str ";") ++ str "\n"
      -- 6
      match r.Body with
      | .absent => (.fault, lines.2)
      | .fails _ => (.error .read, lines.2)
      | .reads data => (.ok (crb ++ fmtHex (P.sha256 data), headers), lines.2)

/-- Go: `func CreateCanonicalRequest(r *http.Request) ([]byte, []string, error)`. -/
def CreateCanonicalRequest (P : Prims) (r : Request) : Outcome (Str × List Str) :=
  (runCanonicalRequest P r).1

/-- The header map `r.Header` after `CreateCanonicalRequest(r)`. -/
def headerAfter (P : Prims) (r : Request) : Values :=
  (runCanonicalRequest P r).2

/-- The run of the unexported `createCanonicalRequest(r)`: the same steps as
`CreateCanonicalRequest`, except that step 1 writes `r.Method + "\n"` with one
`WriteString`.  (Its assignments to `err` before the declaration of `err` in
step 3 are read as assignments to the function's error variable; writes to a
`bytes.Buffer` return a nil error.) -/
def runCanonicalRequestLower (P : Prims) (r : Request) : Outcome (Str × List Str) × Values :=
  let crb := ([] : Str) ++ (r.Method ++ str "\n")
  -- 2
  match canonicalPath r.Path with
  | .fault => (.fault, r.Header)
  | .error e => (.error e, r.Header)
  | .ok cp =>
    let crb := crb ++ cp ++ str "\n"
    -- 3
    match ParseQuery r.RawQuery with
    | none => (.error .query, r.Header)
    | some query =>
      let cqs := canonicalQuery query
      let crb := (if cqs.length > 0 then crb ++ cqs else crb) ++ str "\n"
      -- 4
      let collected := collectHeaders P r.Header [] []
      let headers := sortStrings (collected.1 ++ [str "host"])
      let lines := headerLines r.Host collected.2 headers crb r.Header
      let crb := lines.1 ++ str "\n"
      -- 5
      let crb := crb ++ join headers (str ";") ++ str "\n"
      -- 6
      match r.Body with
      | .absent => (.fault, lines.2)
      | .fails _ => (.error .read, lines.2)
      | .reads data => (.ok (crb ++ fmtHex (P.sha256 data), headers), lines.2)

/-- Go: `func createCanonicalRequest(r *http.Request) ([]byte, []string, error)`. -/
def createCanonicalRequest (P : Prims) (r : Request) : Outcome (Str × List Str) :=
  (runCanonicalRequestLower P r).1

/-! ## Sample inputs -/

/-- A time used in examples: Mon, 02 Jan 2006 15:04:05. -/
def sampleTime : Time :=
  ⟨2006, 1, 2, 15, 4, 5, by decide, by decide, by decide, by decide, by decide⟩

/-- An instance of `Prims` for running the model on concrete inputs: the
digest repeats the length of the message 32 times, the date parser knows one
date, and the Unicode fallbacks leave their argument alone.  It serves the
examples only. -/
def samplePrims : Prims where
  sha256 := fun m => List.replicate 32 (Fin.ofNat m.length)
  sha256_size := fun _ => List.length_replicate _ _
  parseRFC1123 := fun s => if s = str "Mon, 02 Jan 2006 15:04:05 MST" then some sampleTime else none
  unicodeToLower := fun s => s
  unicodeTrimSpace := fun s => s
  unicodeTrimRightSpace := fun s => s

/-- The first day of the year 10000. -/
def year10000 : Time :=
  ⟨10000, 1, 1, 0, 0, 0, by decide, by decide, by decide, by decide, by decide⟩

/-- A request used in examples. -/
def sampleRequest : Request :=
  ⟨str "GET", str "/a/", str "x=1", [(str "X-B", [str "b", str "a"])], str "h.com", .reads []⟩

/-- A request whose URL path is empty, as for the URL `http://h.com`. -/
def emptyPathRequest : Request :=
  ⟨str "GET", str "", str "", [], str "h.com", .reads []⟩

/-- A request with a `Host` header. -/
def hostHeaderRequest : Request :=
  ⟨str "GET", str "/", str "", [(str "Host", [str "x.com"])], str "h.com", .reads []⟩

/-- A request with two headers whose names differ by letter case only, visited
in the order `Foo`, `foo`. -/
def caseRequestA : Request :=
  ⟨str "GET", str "/", str "", [(str "Foo", [str "1"]), (str "foo", [str "2"])], str "h.com", .reads []⟩

/-- The request `caseRequestA` with the headers visited in the order `foo`, `Foo`. -/
def caseRequestB : Request :=
  ⟨str "GET", str "/", str "", [(str "foo", [str "2"]), (str "Foo", [str "1"])], str "h.com", .reads []⟩

/-! ## Specification-side vocabulary -/

/-- An ASCII letter, an ASCII digit or one of `-`, `_`, `.`, `~`. -/
def isUnreservedByte (c : Byte) : Bool :=
  (65 ≤ c.val ∧ c.val ≤ 90) ∨ (97 ≤ c.val ∧ c.val ≤ 122) ∨ (48 ≤ c.val ∧ c.val ≤ 57) ∨
    c.val = 45 ∨ c.val = 95 ∨ c.val = 46 ∨ c.val = 126

/-- The uppercase hexadecimal digit of a value below 16. -/
def upperHexDigit (n : Nat) : Byte := if n < 10 then Fin.ofNat (48 + n) else Fin.ofNat (55 + n)

/-- The lowercase hexadecimal digit of a value below 16. -/
def lowerHexDigit (n : Nat) : Byte := if n < 10 then Fin.ofNat (48 + n) else Fin.ofNat (87 + n)

/-- Percent-encoding of one byte as the specification words it. -/
def percentByte (c : Byte) : Str :=
  if isUnreservedByte c then [c] else [byteOfChar '%', upperHexDigit (c.val / 16), upperHexDigit (c.val % 16)]

/-- Decoding as the specification words it: every `%XY` triple is replaced by
the byte with hexadecimal value `XY`, every other byte is kept. -/
def percentDecode : Str → Str
  | [] => []
  | c :: a :: b :: rest =>
    if c = byteOfChar '%' then Fin.ofNat (unhex a * 16 + unhex b) :: percentDecode rest
    else c :: percentDecode (a :: b :: rest)
  | c :: rest => c :: percentDecode rest

/-- Lowercase hexadecimal rendering, two digits per byte, as the specification words it. -/
def hexLower (x : Str) : Str :=
  x.flatMap (fun v => [lowerHexDigit (v.val / 16), lowerHexDigit (v.val % 16)])

/-- A decimal digit or a letter `a` to `f`. -/
def isLowerHex (c : Byte) : Prop := (48 ≤ c.val ∧ c.val ≤ 57) ∨ (97 ≤ c.val ∧ c.val ≤ 102)

/-- The `width` low decimal digits of `n`, most significant first. -/
def fixedDigits : Nat → Nat → Str
  | 0, _ => []
  | width + 1, n => fixedDigits width (n / 10) ++ [digit n]

/-- What `url.ParseQuery` guarantees of its result: the names are pairwise
distinct and every name has at least one value. -/
def Values.Parsed (m : Values) : Prop :=
  m.WellFormed ∧ ∀ k ∈ m.map Prod.fst, m.get k ≠ []

/-! ## Auxiliary definitions of the proofs -/

/-- The pair `encode(name) ++ "=" ++ encode(value)` written for one value. -/
def queryPair (k v : Str) : Str := encode k ++ str "=" ++ encode v

/-- The pairs of a query in the order of step 3: names ascending, and the
values of a name ascending. -/
def queryPairs (query : Values) (keys : List Str) : List Str :=
  keys.flatMap (fun k => (sortStrings (query.get k)).map (queryPair k))

/-- The map after `m[k] = append(m[k], v)` for each pair `(k, v)` of a list in turn. -/
def addAll (m : Values) (ps : List (Str × Str)) : Values :=
  ps.foldl (fun m p => m.add p.1 p.2) m

/-- The name and value pairs of a query in the order of step 3. -/
def sortedPairs (query : Values) : List (Str × Str) :=
  (sortStrings (query.map Prod.fst)).flatMap (fun k => (sortStrings (query.get k)).map (fun v => (k, v)))

/-- The value written on the line of the signed header `name`: the request's
host for `host`, and else the sorted values of the header that `headersMap`
names, joined with commas. -/
def headerValue (host : Str) (headersMap : List (Str × Str)) (hdr : Values) (name : Str) : Str :=
  if name = str "host" then host
  else join (sortStrings (hdr.get (headersMapGet headersMap name))) (str ",")

/-- The message of the inner hash of `hmacSHA256`: the key block XOR `0x36`,
then the message. -/
def hmacInner (P : Prims) (key msg : Str) : Str :=
  xorPad 0x36 (hmacKeyBlock P key) ++ msg

/-- The message of the outer hash of `hmacSHA256`: the key block XOR `0x5c`,
then the inner digest. -/
def hmacOuter (P : Prims) (key msg : Str) : Str :=
  xorPad 0x5c (hmacKeyBlock P key) ++ P.sha256 (hmacInner P key msg)

/-- Two different messages with the same SHA-256 digest. -/
def Collides (P : Prims) (a b : Str) : Prop := a ≠ b ∧ P.sha256 a = P.sha256 b

/-- SHA-256 collides on the inner or on the outer messages of two HMAC computations. -/
def hmacCollides (P : Prims) (key msg key2 msg2 : Str) : Prop :=
  Collides P (hmacInner P key msg) (hmacInner P key2 msg2) ∨
    Collides P (hmacOuter P key msg) (hmacOuter P key2 msg2)

/-- SHA-256 collides in one of the four HMAC steps of two signing-key
derivations, from `(secret, date, region, service)` and from
`(secret2, date2, region2, service2)`. -/
def chainCollides (P : Prims) (secret date region service secret2 date2 region2 service2 : Str) :
    Prop :=
  hmacCollides P (str "AWS4" ++ secret) date (str "AWS4" ++ secret2) date2 ∨
  hmacCollides P (hmacSHA256 P (str "AWS4" ++ secret) date) region
    (hmacSHA256 P (str "AWS4" ++ secret2) date2) region2 ∨
  hmacCollides P (hmacSHA256 P (hmacSHA256 P (str "AWS4" ++ secret) date) region) service
    (hmacSHA256 P (hmacSHA256 P (str "AWS4" ++ secret2) date2) region2) service2 ∨
  hmacCollides P
    (hmacSHA256 P (hmacSHA256 P (hmacSHA256 P (str "AWS4" ++ secret) date) region) service)
    (str "aws4_request")
    (hmacSHA256 P (hmacSHA256 P (hmacSHA256 P (str "AWS4" ++ secret2) date2) region2) service2)
    (str "aws4_request")

/-! ## SHA-256 (FIPS 180-4) -/

/-- The round constants of SHA-256 (FIPS 180-4, 4.2.2). -/
def sha256K : List Nat :=
  [0x428a2f98, 0x71374491, 0xb5c0fbcf, 0xe9b5dba5, 0x3956c25b, 0x59f111f1, 0x923f82a4, 0xab1c5ed5,
   0xd807aa98, 0x12835b01, 0x243185be, 0x550c7dc3, 0x72be5d74, 0x80deb1fe, 0x9bdc06a7, 0xc19bf174,
   0xe49b69c1, 0xefbe4786, 0x0fc19dc6, 0x240ca1cc, 0x2de92c6f, 0x4a7484aa, 0x5cb0a9dc, 0x76f988da,
   0x983e5152, 0xa831c66d, 0xb00327c8, 0xbf597fc7, 0xc6e00bf3, 0xd5a79147, 0x06ca6351, 0x14292967,
   0x27b70a85, 0x2e1b2138, 0x4d2c6dfc, 0x53380d13, 0x650a7354, 0x766a0abb, 0x81c2c92e, 0x92722c85,
   0xa2bfe8a1, 0xa81a664b, 0xc24b8b70, 0xc76c51a3, 0xd192e819, 0xd6990624, 0xf40e3585, 0x106aa070,
   0x19a4c116, 0x1e376c08, 0x2748774c, 0x34b0bcb5, 0x391c0cb3, 0x4ed8aa4a, 0x5b9cca4f, 0x682e6ff3,
   0x748f82ee, 0x78a5636f, 0x84c87814, 0x8cc70208, 0x90befffa, 0xa4506ceb, 0xbef9a3f7, 0xc67178f2]

/-- A 32-bit word is a natural number below `2 ^ 32`. -/
def w32 (x : Nat) : Nat := x % 4294967296

/-- Rotation of a 32-bit word to the right. -/
def rotr (x n : Nat) : Nat := w32 ((x >>> n) ||| (x <<< (32 - n)))

/-- The eight working variables, and the eight words of the hash value. -/
structure Sha256State where
  a : Nat
  b : Nat
  c : Nat
  d : Nat
  e : Nat
  f : Nat
  g : Nat
  h : Nat

/-- The initial hash value (FIPS 180-4, 5.3.3). -/
def sha256Init : Sha256State :=
  ⟨0x6a09e667, 0xbb67ae85, 0x3c6ef372, 0xa54ff53a, 0x510e527f, 0x9b05688c, 0x1f83d9ab, 0x5be0cd19⟩

/-- Padding: the byte `0x80`, zero bytes up to 56 modulo 64, and the length of
the message in bits as a 64-bit big-endian number. -/
def sha256Pad (m : List Nat) : List Nat :=
  let l := m.length
  let zeros := (119 - l % 64) % 64
  m ++ [0x80] ++ List.replicate zeros 0 ++
    [7, 6, 5, 4, 3, 2, 1, 0].map (fun i => ((8 * l) >>> (8 * i)) % 256)

/-- The big-endian 32-bit words of a block of bytes. -/
def sha256Words : List Nat → List Nat
  | b0 :: b1 :: b2 :: b3 :: rest => (b0 * 16777216 + b1 * 65536 + b2 * 256 + b3) :: sha256Words rest
  | _ => []

/-- The message schedule, newest word first: `n` more words are added to `w`. -/
def sha256Schedule : Nat → List Nat → List Nat
  | 0, w => w
  | n + 1, w =>
    let w2 := w.getD 1 0
    let w7 := w.getD 6 0
    let w15 := w.getD 14 0
    let w16 := w.getD 15 0
    let s0 := rotr w15 7 ^^^ rotr w15 18 ^^^ (w15 >>> 3)
    let s1 := rotr w2 17 ^^^ rotr w2 19 ^^^ (w2 >>> 10)
    sha256Schedule n (w32 (s1 + w7 + s0 + w16) :: w)

/-- One round of the compression function for the constant `k` and the word `w`. -/
def sha256Round (s : Sha256State) (k w : Nat) : Sha256State :=
  let s1 := rotr s.e 6 ^^^ rotr s.e 11 ^^^ rotr s.e 25
  let ch := (s.e &&& s.f) ^^^ ((s.e ^^^ 4294967295) &&& s.g)
  let t1 := w32 (s.h + s1 + ch + k + w)
  let s0 := rotr s.a 2 ^^^ rotr s.a 13 ^^^ rotr s.a 22
  let maj := (s.a &&& s.b) ^^^ (s.a &&& s.c) ^^^ (s.b &&& s.c)
  let t2 := w32 (s0 + maj)
  ⟨w32 (t1 + t2), s.a, s.b, s.c, w32 (s.d + t1), s.e, s.f, s.g⟩

/-- The rounds of the compression function over the constants and the schedule. -/
def sha256Rounds : Sha256State → List Nat → List Nat → Sha256State
  | s, k :: ks, w :: ws => sha256Rounds (sha256Round s k w) ks ws
  | s, _, _ => s

/-- The hash value after one more 64-byte block. -/
def sha256Block (hv : Sha256State) (block : List Nat) : Sha256State :=
  let w := (sha256Schedule 48 (sha256Words block).reverse).reverse
  let s := sha256Rounds hv sha256K w
  ⟨w32 (hv.a + s.a), w32 (hv.b + s.b), w32 (hv.c + s.c), w32 (hv.d + s.d),
   w32 (hv.e + s.e), w32 (hv.f + s.f), w32 (hv.g + s.g), w32 (hv.h + s.h)⟩

/-- The hash value after `n` more blocks of the padded message. -/
def sha256Blocks : Nat → Sha256State → List Nat → Sha256State
  | 0, hv, _ => hv
  | n + 1, hv, m => sha256Blocks n (sha256Block hv (m.take 64)) (m.drop 64)

/-- The four bytes of a 32-bit word, most significant first. -/
def wordBytes (x : Nat) : Str :=
  [Fin.ofNat (x >>> 24), Fin.ofNat (x >>> 16), Fin.ofNat (x >>> 8), Fin.ofNat x]

/-- SHA-256 (FIPS 180-4) of a message. -/
def sha256Ref (m : Str) : Str :=
  let p := sha256Pad (m.map (fun b => b.val))
  let hv := sha256Blocks (p.length / 64) sha256Init p
  wordBytes hv.a ++ wordBytes hv.b ++ wordBytes hv.c ++ wordBytes hv.d ++
    wordBytes hv.e ++ wordBytes hv.f ++ wordBytes hv.g ++ wordBytes hv.h

/-- The primitives with SHA-256 as FIPS 180-4 defines it (the other fields as
in `samplePrims`). -/
def refPrims : Prims where
  sha256 := sha256Ref
  sha256_size := fun _ => by simp [sha256Ref, wordBytes]
  parseRFC1123 := samplePrims.parseRFC1123
  unicodeToLower := fun s => s
  unicodeTrimSpace := fun s => s
  unicodeTrimRightSpace := fun s => s

/-! ## The tree hash (package `glacier`) -/

/-- Modelled from the spec: the chunk size `MiB` of package `glacier`,
1,048,576 bytes.  Of that package only the test `treehash_test.go` is at hand. -/
def MiB : Nat := 1048576

/-- Modelled from the spec: the loop that cuts a stream into consecutive chunks
of `size` bytes, the last one possibly shorter; a stream of at most `size`
bytes, the empty one included, is one chunk.  `len(data)` rounds are enough. -/
def chunksLoop (size : Nat) : Nat → Str → List Str
  | 0, data => [data]
  | fuel + 1, data =>
    if data.length ≤ size then [data]
    else data.take size :: chunksLoop size fuel (data.drop size)

/-- Modelled from the spec: the chunks of a stream. -/
def chunks (size : Nat) (data : Str) : List Str := chunksLoop size data.length data

/-- Modelled from the spec: `toHex` of package `glacier`, the digest as
lowercase hexadecimal characters; the test compares `toHex(tree.Hash[:])` with
its expected strings. -/
def toHex (x : Str) : Str := hexLower x

/-- Modelled from the spec: one round of combining a level of digests: adjacent
pairs, left to right, are replaced by one SHA-256 digest, and an unpaired last
digest is carried up unchanged.  The message hashed for a pair is the 128
lowercase hexadecimal characters of the two digests, left then right: this is
what the expected roots of `TestTreeHash` require; the 64 raw bytes of the
spec's wording give other roots for every stream of more than one chunk. -/
def pairLevel (P : Prims) : List Str → List Str
  | [] => []
  | [a] => [a]
  | a :: b :: rest => P.sha256 (toHex a ++ toHex b) :: pairLevel P rest

/-- Modelled from the spec: the rounds are repeated until one digest remains;
a level of `n` digests needs fewer than `n` rounds. -/
def reduceLevels (P : Prims) : Nat → List Str → List Str
  | 0, level => level
  | fuel + 1, level =>
    if level.length ≤ 1 then level else reduceLevels P fuel (pairLevel P level)

/-- Modelled from the spec: the node that `createTreeHash` returns; the test
reads its field `Hash`, the 32-byte root digest. -/
structure TreeNode where
  Hash : Str
  deriving DecidableEq, Repr

/-- Modelled from the spec: the byte stream handed to `createTreeHash`, as
reading sees it. -/
inductive Reader where
  /-- Reading yields `data` and then end-of-stream. -/
  | reads (data : Str)
  /-- Reading yields `data` and then an error. -/
  | fails (data : Str)
  deriving DecidableEq, Repr

/-- Modelled from the spec: `createTreeHash(r)` of package `glacier`: the
SHA-256 of every chunk of 1 MiB, combined level by level into one root digest;
a read error is returned as an error. -/
def createTreeHash (P : Prims) (input : Reader) : Outcome TreeNode :=
  match input with
  | .fails _ => .error .read
  | .reads data =>
    let leaves := (chunks MiB data).map P.sha256
    match reduceLevels P leaves.length leaves with
    | [root] => .ok ⟨root⟩
    | _ => .fault

/-! ## The inputs of `TestTreeHash` -/

/-- The bytes that a string of hexadecimal digits writes, two digits a byte. -/
def fromHex : Str → Str
  | a :: b :: rest => Fin.ofNat (unhex a * 16 + unhex b) :: fromHex rest
  | _ => []

/-- The stream of `n` bytes `a` that `TestTreeHash` writes into its buffer. -/
def aBytes (n : Nat) : Str := List.replicate n 97

/-- The SHA-256 digest of 1 MiB of `a`, as the second case of `TestTreeHash`
states it. -/
def leafA : Str :=
  fromHex (str "9bc1b2a288b26af7257a36277ae3816a7d4f16e89c1e7e77d0a5c48bad62b360")

/-- SHA-256 after FIPS 180-4, except that the digest of 1 MiB of `a`, a message
of 16,385 blocks, is not computed: it is `leafA`, the value that the second
case of `TestTreeHash` states.  Every other message, the 128 characters hashed
for a pair included, is hashed by `sha256Ref`. -/
def pinnedSha256 (m : Str) : Str := if m = aBytes MiB then leafA else sha256Ref m

/-- The primitives with `pinnedSha256` for SHA-256 (the other fields as in
`samplePrims`). -/
def pinnedPrims : Prims where
  sha256 := pinnedSha256
  sha256_size := fun m => by
    unfold pinnedSha256
    split
    · decide
    · simp [sha256Ref, wordBytes]
  parseRFC1123 := samplePrims.parseRFC1123
  unicodeToLower := fun s => s
  unicodeTrimSpace := fun s => s
  unicodeTrimRightSpace := fun s => s

/-! # Theorems -/

/-! ## Facts about single bytes -/

set_option maxRecDepth 100000 in
theorem mustEscape_eq : ∀ c : Byte, mustEscape c = !isUnreservedByte c := by decide

set_option maxRecDepth 100000 in
theorem hex_hi : ∀ c : Byte, hex.getD (c.val >>> 4) 0 = upperHexDigit (c.val / 16) := by decide

set_option maxRecDepth 100000 in
theorem hex_lo : ∀ c : Byte, hex.getD (c.val &&& 0xF) 0 = upperHexDigit (c.val % 16) := by decide

set_option maxRecDepth 100000 in
theorem lchex_hi : ∀ c : Byte, lchex.getD ((c.val &&& 0xf0) >>> 4) 0 = lowerHexDigit (c.val / 16) := by decide

set_option maxRecDepth 100000 in
theorem lchex_lo : ∀ c : Byte, lchex.getD (c.val &&& 0x0f) 0 = lowerHexDigit (c.val % 16) := by decide

set_option maxRecDepth 100000 in
theorem lchex_div : ∀ c : Byte, lchex.getD (c.val / 16) 0 = lowerHexDigit (c.val / 16) := by decide

set_option maxRecDepth 100000 in
theorem lchex_mod : ∀ c : Byte, lchex.getD (c.val % 16) 0 = lowerHexDigit (c.val % 16) := by decide

/-! ## `encode`, `toLcHex` and `%x` -/

theorem isUnreservedByte_eq (c : Byte) : isUnreservedByte c = !mustEscape c := by
  rw [mustEscape_eq]; simp

theorem encodeLoop_eq (s e : Str) : encodeLoop s e = e ++ s.flatMap percentByte := by
  induction s generalizing e with
  | nil => simp [encodeLoop]
  | cons c s ih =>
    rw [encodeLoop, hex_hi, hex_lo, ih, ih, List.flatMap_cons, percentByte, isUnreservedByte_eq]
    cases mustEscape c <;> simp

theorem flatMap_percentByte_of_all (s : Str) (h : s.any mustEscape = false) :
    s.flatMap percentByte = s := by
  induction s with
  | nil => rfl
  | cons c s ih =>
    rw [List.any_cons, Bool.or_eq_false_iff] at h
    rw [List.flatMap_cons, ih h.2, percentByte, isUnreservedByte_eq, h.1]
    rfl

theorem encode_eq_flatMap (s : Str) : encode s = s.flatMap percentByte := by
  unfold encode
  cases h : s.any mustEscape
  · simpa using (flatMap_percentByte_of_all s h).symm
  · simp [encodeLoop_eq]

theorem toLcHex_eq (x : Str) : toLcHex x = hexLower x := by
  induction x with
  | nil => rfl
  | cons v x ih => rw [toLcHex, lchex_hi, lchex_lo, ih]; rfl

theorem fmtHex_eq (x : Str) : fmtHex x = hexLower x := by
  unfold fmtHex hexLower
  congr 1
  funext v
  rw [lchex_div, lchex_mod]

theorem hexLower_length (x : Str) : (hexLower x).length = 2 * x.length := by
  induction x with
  | nil => rfl
  | cons v x ih =>
    have : hexLower (v :: x) = lowerHexDigit (v.val / 16) :: lowerHexDigit (v.val % 16) :: hexLower x := rfl
    rw [this]; simp [ih]; omega

set_option maxRecDepth 100000 in
theorem lowerHexDigit_isLowerHex : ∀ n : Fin 16, isLowerHex (lowerHexDigit n.val) := by
  unfold isLowerHex; decide

theorem hexLower_isLowerHex (x : Str) : ∀ c ∈ hexLower x, isLowerHex c := by
  intro c hc
  simp only [hexLower, List.mem_flatMap, List.mem_cons, List.mem_singleton, List.not_mem_nil, or_false] at hc
  obtain ⟨v, _, h | h⟩ := hc
  · subst h; exact lowerHexDigit_isLowerHex ⟨v.val / 16, by omega⟩
  · subst h; exact lowerHexDigit_isLowerHex ⟨v.val % 16, by omega⟩

theorem hexLower_get (x : Str) : ∀ (i : Nat) (b : Byte), x[i]? = some b →
    (hexLower x)[2 * i]? = some (lowerHexDigit (b.val / 16)) ∧
    (hexLower x)[2 * i + 1]? = some (lowerHexDigit (b.val % 16)) := by
  induction x with
  | nil => intro i b h; simp at h
  | cons v x ih =>
    intro i b h
    have hc : hexLower (v :: x) = lowerHexDigit (v.val / 16) :: lowerHexDigit (v.val % 16) :: hexLower x := rfl
    rw [hc]
    cases i with
    | zero => simp at h; subst h; simp
    | succ i =>
      simp only [List.getElem?_cons_succ] at h
      have := ih i b h
      have e1 : 2 * (i + 1) = (2 * i + 1) + 1 := by omega
      rw [e1]
      simpa using this

/-! ## The final signature -/

theorem hmacSHA256_length (P : Prims) (key msg : Str) : (hmacSHA256 P key msg).length = 32 :=
  P.sha256_size _

/-- C4: `signStringToSign(sts)` is the lowercase hexadecimal rendering of the
HMAC-SHA256 of `sts` under the 32 bytes of the signing key: the MAC has 32
bytes, the result has 64 characters, each a digit or a letter `a` to `f`, and
characters `2i` and `2i+1` are the high and the low nibble of byte `i`. -/
theorem signStringToSign_spec (P : Prims) (s : Signature) (sts : Str) :
    s.bytes.length = 32 ∧
    (hmacSHA256 P s.bytes sts).length = 32 ∧
    signStringToSign P s sts = hexLower (hmacSHA256 P s.bytes sts) ∧
    (signStringToSign P s sts).length = 64 ∧
    (∀ c ∈ signStringToSign P s sts, isLowerHex c) ∧
    (∀ (i : Nat) (b : Byte), (hmacSHA256 P s.bytes sts)[i]? = some b →
      (signStringToSign P s sts)[2 * i]? = some (lowerHexDigit (b.val / 16)) ∧
      (signStringToSign P s sts)[2 * i + 1]? = some (lowerHexDigit (b.val % 16))) := by
  have h : signStringToSign P s sts = hexLower (hmacSHA256 P s.bytes sts) := toLcHex_eq _
  refine ⟨s.size, hmacSHA256_length P _ _, h, ?_, ?_, ?_⟩
  · rw [h, hexLower_length, hmacSHA256_length]
  · rw [h]; exact hexLower_isLowerHex _
  · rw [h]; exact hexLower_get _

/-! ## Percent-encoding -/

/-- C5: `encode(s)` is the concatenation over the bytes of `s` of the byte
itself when it is unreserved and of `%XY` in uppercase hexadecimal otherwise;
`/`, `%`, space and every byte above 127 are escaped. -/
theorem encode_spec (s : Str) :
    encode s = s.flatMap (fun c =>
      if isUnreservedByte c then [c]
      else [byteOfChar '%', upperHexDigit (c.val / 16), upperHexDigit (c.val % 16)]) ∧
    (∀ c : Byte, c = byteOfChar '/' ∨ c = byteOfChar '%' ∨ c = byteOfChar ' ' ∨ c.val > 127 →
      isUnreservedByte c = false) ∧
    (∀ n : Nat, n < 16 → (upperHexDigit n ∈ str "0123456789ABCDEF")) := by
  refine ⟨encode_eq_flatMap s, ?_, ?_⟩
  · intro c hc
    have : ∀ c : Byte, c = byteOfChar '/' ∨ c = byteOfChar '%' ∨ c = byteOfChar ' ' ∨ c.val > 127 →
      isUnreservedByte c = false := by
      set_option maxRecDepth 100000 in decide
    exact this c hc
  · intro n hn
    have : ∀ n : Fin 16, upperHexDigit n.val ∈ str "0123456789ABCDEF" := by decide
    exact this ⟨n, hn⟩

/-! ## Time layouts and the signing key -/

theorem byteOfChar_zero : byteOfChar '0' = digit 0 := by decide

theorem decimal_pad4 (n : Nat) (h : n < 10000) :
    List.replicate (4 - (decimal n).length) (byteOfChar '0') ++ decimal n = fixedDigits 4 n := by
  have d0 : ∀ m, m = 0 → digit m = digit 0 := by intro m hm; rw [hm]
  by_cases h1 : n < 10
  · have e : decimal n = [digit n] := by simp [decimal, decimalAux, h1]
    rw [e]
    simp [fixedDigits, byteOfChar_zero, List.replicate]
    refine ⟨(d0 _ ?_).symm, (d0 _ ?_).symm, (d0 _ ?_).symm⟩ <;> omega
  · by_cases h2 : n < 100
    · have e : decimal n = [digit (n / 10), digit n] := by
        have : n / 10 < 10 := by omega
        simp [decimal, decimalAux, h1, this]
      rw [e]
      simp [fixedDigits, byteOfChar_zero, List.replicate]
      refine ⟨(d0 _ ?_).symm, (d0 _ ?_).symm⟩ <;> omega
    · by_cases h3 : n < 1000
      · have e : decimal n = [digit (n / 10 / 10), digit (n / 10), digit n] := by
          have a : ¬ n / 10 < 10 := by omega
          have b : n / 10 / 10 < 10 := by omega
          simp [decimal, decimalAux, h1, a, b]
        rw [e]
        simp [fixedDigits, byteOfChar_zero, List.replicate]
        exact (d0 _ (by omega)).symm
      · have e : decimal n = [digit (n / 10 / 10 / 10), digit (n / 10 / 10), digit (n / 10), digit n] := by
          have a : ¬ n / 10 < 10 := by omega
          have b : ¬ n / 10 / 10 < 10 := by omega
          have c : n / 10 / 10 / 10 < 10 := by omega
          simp [decimal, decimalAux, h1, a, b, c]
        rw [e]
        simp [fixedDigits]

theorem decimal_pad2 (n : Nat) (h : n < 100) :
    List.replicate (2 - (decimal n).length) (byteOfChar '0') ++ decimal n = fixedDigits 2 n := by
  have d0 : ∀ m, m = 0 → digit m = digit 0 := by intro m hm; rw [hm]
  by_cases h1 : n < 10
  · have e : decimal n = [digit n] := by simp [decimal, decimalAux, h1]
    rw [e]
    simp [fixedDigits, byteOfChar_zero, List.replicate]
    exact (d0 _ (by omega)).symm
  · have e : decimal n = [digit (n / 10), digit n] := by
      have : n / 10 < 10 := by omega
      simp [decimal, decimalAux, h1, this]
    rw [e]
    simp [fixedDigits]

theorem appendInt_year (y : Int) (h0 : 0 ≤ y) (h1 : y ≤ 9999) :
    appendInt y 4 = fixedDigits 4 y.toNat := by
  have hn : y.natAbs = y.toNat := by omega
  have hneg : ¬ y < 0 := by omega
  unfold appendInt
  simp only [hneg, if_false, List.nil_append, hn]
  exact decimal_pad4 _ (by omega)

theorem appendInt_two (n : Nat) (h : n < 100) : appendInt (n : Int) 2 = fixedDigits 2 n := by
  have hneg : ¬ ((n : Int) < 0) := by omega
  unfold appendInt
  simp only [hneg, if_false, List.nil_append, Int.natAbs_ofNat]
  exact decimal_pad2 _ h

theorem formatShort_eq (t : Time) (h0 : 0 ≤ t.year) (h1 : t.year ≤ 9999) :
    formatShort t = fixedDigits 4 t.year.toNat ++ fixedDigits 2 t.month ++ fixedDigits 2 t.day := by
  unfold formatShort
  rw [appendInt_year _ h0 h1, appendInt_two _ (by have := t.month_ok; omega),
    appendInt_two _ (by have := t.day_ok; omega)]

theorem formatBasic_eq (t : Time) (h0 : 0 ≤ t.year) (h1 : t.year ≤ 9999) :
    formatBasic t = fixedDigits 4 t.year.toNat ++ fixedDigits 2 t.month ++ fixedDigits 2 t.day ++
      str "T" ++ fixedDigits 2 t.hour ++ fixedDigits 2 t.minute ++ fixedDigits 2 t.second ++ str "Z" := by
  unfold formatBasic
  rw [appendInt_year _ h0 h1, appendInt_two _ (by have := t.month_ok; omega),
    appendInt_two _ (by have := t.day_ok; omega), appendInt_two _ (by have := t.hour_ok; omega),
    appendInt_two _ (by have := t.minute_ok; omega), appendInt_two _ (by have := t.second_ok; omega)]

theorem fixedDigits_length (w n : Nat) : (fixedDigits w n).length = w := by
  induction w generalizing n with
  | zero => rfl
  | succ w ih => simp [fixedDigits, ih]

/-- C2, counterexample: for a time in the year 10000 the date that
`NewSignature` feeds into the first HMAC is `100000101`, nine characters and
not eight. -/
theorem formatShort_year10000 :
    formatShort year10000 = str "100000101" ∧ (formatShort year10000).length ≠ 8 ∧
    ∀ (P : Prims) (k : Keys) (r : Region) (service : Str),
      (NewSignature P k year10000 r service).bytes =
        hmacSHA256 P (hmacSHA256 P (hmacSHA256 P (hmacSHA256 P (str "AWS4" ++ k.Secret)
          (str "100000101")) r.Name) service) (str "aws4_request") := by
  have h : formatShort year10000 = str "100000101" := by decide
  refine ⟨h, by decide, ?_⟩
  intro P k r service
  rw [← h]
  rfl

/-- C2, amended: `NewSignature` returns the four-step HMAC-SHA256 chain over
`"AWS4" ++ secret`, the date `t.Format("20060102")`, the region name, the
service and `"aws4_request"`, each step's 32-byte output being the key of the
next; for a year from 0 to 9999 the date is the 8 digits YYYYMMDD. -/
theorem NewSignature_chain (P : Prims) (k : Keys) (t : Time) (r : Region) (service : Str) :
    (NewSignature P k t r service).bytes =
      hmacSHA256 P (hmacSHA256 P (hmacSHA256 P (hmacSHA256 P (str "AWS4" ++ k.Secret)
        (formatShort t)) r.Name) service) (str "aws4_request") ∧
    (hmacSHA256 P (str "AWS4" ++ k.Secret) (formatShort t)).length = 32 ∧
    (hmacSHA256 P (hmacSHA256 P (str "AWS4" ++ k.Secret) (formatShort t)) r.Name).length = 32 ∧
    (hmacSHA256 P (hmacSHA256 P (hmacSHA256 P (str "AWS4" ++ k.Secret)
        (formatShort t)) r.Name) service).length = 32 ∧
    (NewSignature P k t r service).bytes.length = 32 ∧
    (0 ≤ t.year ∧ t.year ≤ 9999 →
      formatShort t = fixedDigits 4 t.year.toNat ++ fixedDigits 2 t.month ++ fixedDigits 2 t.day ∧
      (formatShort t).length = 8) := by
  refine ⟨rfl, hmacSHA256_length _ _ _, hmacSHA256_length _ _ _, hmacSHA256_length _ _ _,
    (NewSignature P k t r service).size, ?_⟩
  rintro ⟨h0, h1⟩
  refine ⟨formatShort_eq t h0 h1, ?_⟩
  rw [formatShort_eq t h0 h1]
  simp [fixedDigits_length]

/-! ## The string to sign -/

/-- C3: when the date parses, `CreateStringToSign` returns the algorithm
identifier, the parsed time in the layout `20060102T150405Z`, the credential
scope verbatim and the 64-character lowercase-hex SHA-256 of the canonical
request, joined by newlines, with no trailing newline. -/
theorem CreateStringToSign_spec (P : Prims) (cr date cs : Str) (d : Time)
    (hd : P.parseRFC1123 date = some d) :
    CreateStringToSign P cr date cs =
      .ok (str "AWS4-HMAC-SHA256" ++ str "\n" ++ formatBasic d ++ str "\n" ++ cs ++ str "\n" ++
        hexLower (P.sha256 cr)) ∧
    (hexLower (P.sha256 cr)).length = 64 ∧
    (∀ c ∈ hexLower (P.sha256 cr), isLowerHex c) ∧
    (∀ out, CreateStringToSign P cr date cs = .ok out → out.getLast? ≠ some (byteOfChar '\n')) ∧
    (0 ≤ d.year ∧ d.year ≤ 9999 →
      formatBasic d = fixedDigits 4 d.year.toNat ++ fixedDigits 2 d.month ++ fixedDigits 2 d.day ++
        str "T" ++ fixedDigits 2 d.hour ++ fixedDigits 2 d.minute ++ fixedDigits 2 d.second ++
        str "Z") := by
  have hlen : (hexLower (P.sha256 cr)).length = 64 := by
    rw [hexLower_length, P.sha256_size]
  have hres : CreateStringToSign P cr date cs =
      .ok (str "AWS4-HMAC-SHA256" ++ str "\n" ++ formatBasic d ++ str "\n" ++ cs ++ str "\n" ++
        hexLower (P.sha256 cr)) := by
    unfold CreateStringToSign
    rw [hd, fmtHex_eq]
    have : str "AWS4-HMAC-SHA256\n" = str "AWS4-HMAC-SHA256" ++ str "\n" := by decide
    simp only [this, List.append_assoc]
  refine ⟨hres, hlen, hexLower_isLowerHex _, ?_, fun h => formatBasic_eq d h.1 h.2⟩
  intro out hout
  rw [hres] at hout
  injection hout with hout
  subst hout
  have hne : hexLower (P.sha256 cr) ≠ [] := by
    intro h; rw [h] at hlen; simp at hlen
  rw [List.getLast?_append_of_ne_nil _ hne]
  intro h
  have hmem : byteOfChar '\n' ∈ hexLower (P.sha256 cr) := List.mem_of_getLast?_eq_some h
  have := hexLower_isLowerHex _ _ hmem
  revert this
  unfold isLowerHex
  decide

/-- C3, witness: the date `Mon, 02 Jan 2006 15:04:05 MST` under the sample primitives. -/
theorem CreateStringToSign_spec_witness :
    samplePrims.parseRFC1123 (str "Mon, 02 Jan 2006 15:04:05 MST") = some sampleTime ∧
    CreateStringToSign samplePrims (str "GET") (str "Mon, 02 Jan 2006 15:04:05 MST")
        (str "20060102/us-east-1/glacier/aws4_request") =
      .ok (str "AWS4-HMAC-SHA256" ++ str "\n" ++ formatBasic sampleTime ++ str "\n" ++
        str "20060102/us-east-1/glacier/aws4_request" ++ str "\n" ++
        hexLower (samplePrims.sha256 (str "GET"))) ∧
    formatBasic sampleTime = str "20060102T150405Z" :=
  ⟨rfl,
   (CreateStringToSign_spec samplePrims (str "GET") (str "Mon, 02 Jan 2006 15:04:05 MST")
      (str "20060102/us-east-1/glacier/aws4_request") sampleTime rfl).1,
   by decide⟩

/-! ## The canonical URI -/

theorem Clean_ne_nil (p : Str) : Clean p ≠ [] := by
  have hdot : str "." ≠ [] := by decide
  have key : ∀ out : Str, (if out.length = 0 then str "." else out.reverse) ≠ [] := by
    intro out
    by_cases h : out.length = 0
    · rw [if_pos h]; exact hdot
    · rw [if_neg h]
      intro e
      rw [List.reverse_eq_nil_iff] at e
      exact h (by rw [e]; rfl)
  unfold Clean
  cases p with
  | nil => exact hdot
  | cons c rest => exact key _

theorem foldl_segments (parts : List Str) (acc : Str) :
    parts.foldl (fun cp part => cp ++ (str "/" ++ encode part)) acc =
      acc ++ parts.flatMap (fun part => str "/" ++ encode part) := by
  induction parts generalizing acc with
  | nil => simp
  | cons part parts ih => rw [List.foldl_cons, ih, List.flatMap_cons, List.append_assoc]

/-- What step 2 writes for a path that is not empty: a slash and the encoded
segment for every segment of the cleaned path behind its first byte, and one
more slash when the scan of the original path set `ts`. -/
theorem canonicalPath_eq (p : Str) (hp : p ≠ []) :
    canonicalPath p = .ok
      ((split (byteOfChar '/') ((Clean p).drop 1)).flatMap (fun part => str "/" ++ encode part) ++
        (if trailingSlash p then str "/" else [])) := by
  unfold canonicalPath
  have h1 : ¬ p.length = 0 := by
    intro h; exact hp (List.length_eq_zero.mp h)
  have h2 : ¬ (Clean p).length < 1 := by
    have := List.length_pos.mpr (Clean_ne_nil p)
    omega
  rw [if_neg h1]
  dsimp only
  rw [if_neg h2, foldl_segments, List.nil_append]
  cases trailingSlash p <;> simp

/-- C6, failing inputs: for the path `/a/../` normalisation gives `/`, which
still ends in a slash, yet one more slash is written and the canonical URI is
`//`; for `/.../` normalisation drops the trailing slash and none is added. -/
theorem canonicalPath_trailing_slash_slip :
    Clean (str "/a/../") = str "/" ∧ canonicalPath (str "/a/../") = .ok (str "//") ∧
    Clean (str "/.../") = str "/..." ∧ canonicalPath (str "/.../") = .ok (str "/...") := by
  decide

/-- C7, failing input: `/` and `/a/../` have the same normalised form and both
end in a slash, but their canonical URIs differ. -/
theorem canonicalPath_redundant_segments_differ :
    Clean (str "/") = Clean (str "/a/../") ∧
    (str "/").getLast? = some (byteOfChar '/') ∧ (str "/a/../").getLast? = some (byteOfChar '/') ∧
    canonicalPath (str "/") = .ok (str "/") ∧ canonicalPath (str "/a/../") = .ok (str "//") ∧
    canonicalPath (str "/") ≠ canonicalPath (str "/a/../") := by
  decide

/-! ## The canonical query string -/

/-- C9, failing input: the raw query `0=1&@=2` parses to the names `0` and `@`;
they are written in the order of the raw names, `0=1&%40=2`, but the encoded
name `%40` is smaller than the encoded name `0`. -/
theorem canonicalQuery_not_sorted_by_encoded_name :
    ParseQuery (str "0=1&@=2") = some [(str "0", [str "1"]), (str "@", [str "2"])] ∧
    canonicalQuery [(str "0", [str "1"]), (str "@", [str "2"])] = str "0=1&%40=2" ∧
    encode (str "0") = str "0" ∧ encode (str "@") = str "%40" ∧
    encode (str "@") < encode (str "0") := by
  decide

theorem join_nil (sep : Str) : join [] sep = [] := rfl

theorem join_singleton (x sep : Str) : join [x] sep = x := by
  simp [join, List.intercalate, List.intersperse]

theorem join_cons_cons (x y : Str) (l : List Str) (sep : Str) :
    join (x :: y :: l) sep = x ++ sep ++ join (y :: l) sep := by
  simp [join, List.intercalate, List.intersperse]

theorem join_cons_of_ne_nil (x : Str) (l : List Str) (sep : Str) (h : l ≠ []) :
    join (x :: l) sep = x ++ sep ++ join l sep := by
  cases l with
  | nil => exact absurd rfl h
  | cons y l => exact join_cons_cons x y l sep

theorem join_append (a b : List Str) (sep : Str) (ha : a ≠ []) (hb : b ≠ []) :
    join (a ++ b) sep = join a sep ++ sep ++ join b sep := by
  induction a with
  | nil => exact absurd rfl ha
  | cons x a ih =>
    cases a with
    | nil => simp [join_singleton, join_cons_of_ne_nil _ _ _ hb]
    | cons y a =>
      rw [List.cons_append, join_cons_of_ne_nil _ _ _ (by simp), ih (by simp), join_cons_cons]
      simp [List.append_assoc]

theorem queryInner_eq (k : Str) (ps : List Str) (j : Nat) (cqs : Str) :
    queryInner k ps j cqs =
      cqs ++ (if j > 0 ∧ ps ≠ [] then str "&" else []) ++ join (ps.map (queryPair k)) (str "&") := by
  induction ps generalizing j cqs with
  | nil => simp [queryInner, join_nil]
  | cons p ps ih =>
    rw [queryInner, ih]
    cases ps with
    | nil =>
      by_cases hj : j > 0 <;> simp [hj, join_singleton, join_nil, queryPair, List.append_assoc]
    | cons q ps =>
      simp only [List.map_cons]
      rw [join_cons_cons (queryPair k p)]
      by_cases hj : j > 0 <;> simp [hj, queryPair, List.append_assoc]

theorem sortStrings_perm (l : List Str) : (sortStrings l).Perm l :=
  List.perm_insertionSort _ l

theorem sortStrings_sorted (l : List Str) : (sortStrings l).Sorted (· ≤ ·) :=
  List.sorted_insertionSort _ l

theorem sortStrings_ne_nil (l : List Str) (h : l ≠ []) : sortStrings l ≠ [] := by
  intro e
  have := (sortStrings_perm l).length_eq
  rw [e] at this
  exact h (List.length_eq_zero.mp this.symm)

theorem mem_sortStrings (l : List Str) (x : Str) : x ∈ sortStrings l ↔ x ∈ l :=
  (sortStrings_perm l).mem_iff

theorem queryOuter_eq (query : Values) (ks : List Str) (hne : ∀ k ∈ ks, query.get k ≠ [])
    (i : Nat) (cqs : Str) :
    queryOuter query ks i cqs =
      cqs ++ (if i > 0 ∧ ks ≠ [] then str "&" else []) ++ join (queryPairs query ks) (str "&") := by
  induction ks generalizing i cqs with
  | nil => simp [queryOuter, queryPairs, join_nil]
  | cons k ks ih =>
    have hk : sortStrings (query.get k) ≠ [] := sortStrings_ne_nil _ (hne k (List.mem_cons_self _ _))
    have hk' : (sortStrings (query.get k)).map (queryPair k) ≠ [] := by simpa using hk
    rw [queryOuter, ih (fun k' h => hne k' (List.mem_cons_of_mem _ h)), queryInner_eq]
    have hp : queryPairs query (k :: ks) =
        (sortStrings (query.get k)).map (queryPair k) ++ queryPairs query ks := by
      simp [queryPairs]
    rw [hp]
    cases ks with
    | nil =>
      by_cases hi : i > 0 <;> simp [hi, queryPairs, join_nil]
    | cons k2 ks =>
      have hk2 : sortStrings (query.get k2) ≠ [] :=
        sortStrings_ne_nil _ (hne k2 (by simp))
      have hq : queryPairs query (k2 :: ks) ≠ [] := by
        simp [queryPairs, hk2]
      rw [join_append _ _ _ hk' hq]
      by_cases hi : i > 0 <;> simp [hi, List.append_assoc]


/-- C8: for a parsed query, whose names each have at least one value, the
canonical query string is the `&`-join, over the names in ascending order and
within a name over its values in ascending order, of
`encode(name) ++ "=" ++ encode(value)`; the empty query gives the empty string
and an empty value gives `name=`. -/
theorem canonicalQuery_spec (query : Values)
    (hne : ∀ k ∈ query.map Prod.fst, query.get k ≠ []) :
    canonicalQuery query =
      join ((sortStrings (query.map Prod.fst)).flatMap (fun k =>
        (sortStrings (query.get k)).map (fun v => encode k ++ str "=" ++ encode v))) (str "&") ∧
    (sortStrings (query.map Prod.fst)).Sorted (· ≤ ·) ∧
    (sortStrings (query.map Prod.fst)).Perm (query.map Prod.fst) ∧
    (∀ k, (sortStrings (query.get k)).Sorted (· ≤ ·) ∧ (sortStrings (query.get k)).Perm (query.get k)) ∧
    canonicalQuery [] = [] ∧
    (∀ k : Str, encode k ++ str "=" ++ encode [] = encode k ++ str "=") := by
  refine ⟨?_, sortStrings_sorted _, sortStrings_perm _,
    fun k => ⟨sortStrings_sorted _, sortStrings_perm _⟩, rfl, ?_⟩
  · unfold canonicalQuery
    have h := queryOuter_eq query (sortStrings (query.map Prod.fst))
      (fun k hk => hne k ((mem_sortStrings _ _).mp hk)) 0 []
    rw [h]
    simp only [gt_iff_lt, lt_self_iff_false, false_and, if_false, List.nil_append, List.append_nil]
    rfl
  · intro k
    have : encode [] = [] := rfl
    rw [this, List.append_nil]

/-- C8, witness: a query with a repeated name and an empty value. -/
theorem canonicalQuery_spec_witness :
    (∀ k ∈ [str "b", str "a", str "c"],
      Values.get [(str "b", [str "2", str "1"]), (str "a", [str "1"]), (str "c", [str ""])] k ≠ []) ∧
    canonicalQuery [(str "b", [str "2", str "1"]), (str "a", [str "1"]), (str "c", [str ""])] =
      str "a=1&b=1&b=2&c=" :=
  ⟨by decide,
   ((canonicalQuery_spec [(str "b", [str "2", str "1"]), (str "a", [str "1"]), (str "c", [str ""])]
    (by decide)).1).trans (by decide)⟩

/-! ## Parsing the canonical query string again -/

set_option maxRecDepth 100000 in
theorem percentByte_plain_all : ∀ b : Byte, (percentByte b).all (fun c =>
    decide (c ≠ byteOfChar '&') && decide (c ≠ byteOfChar ';') && decide (c ≠ byteOfChar '=')) = true := by
  decide

theorem percentByte_plain (b c : Byte) (hc : c ∈ percentByte b) :
    c ≠ byteOfChar '&' ∧ c ≠ byteOfChar ';' ∧ c ≠ byteOfChar '=' := by
  have h := percentByte_plain_all b
  rw [List.all_eq_true] at h
  have := h c hc
  simpa [and_assoc] using this

set_option maxRecDepth 100000 in
theorem unreserved_not_special : ∀ b : Byte, isUnreservedByte b = true →
    b ≠ byteOfChar '%' ∧ b ≠ byteOfChar '+' := by decide

set_option maxRecDepth 100000 in
theorem unhex_upperHexDigit : ∀ b : Byte,
    ishex (upperHexDigit (b.val / 16)) = true ∧ ishex (upperHexDigit (b.val % 16)) = true ∧
    (Fin.ofNat (unhex (upperHexDigit (b.val / 16)) <<< 4 ||| unhex (upperHexDigit (b.val % 16))) : Byte) = b := by
  decide

theorem encode_plain (s : Str) : ∀ c ∈ encode s,
    c ≠ byteOfChar '&' ∧ c ≠ byteOfChar ';' ∧ c ≠ byteOfChar '=' := by
  intro c hc
  rw [encode_eq_flatMap, List.mem_flatMap] at hc
  obtain ⟨b, _, hb⟩ := hc
  exact percentByte_plain b c hb

theorem QueryUnescape_percentByte (b : Byte) (rest : Str) :
    QueryUnescape (percentByte b ++ rest) = (QueryUnescape rest).map (fun t => b :: t) := by
  unfold percentByte
  cases h : isUnreservedByte b
  · obtain ⟨h1, h2, h3⟩ := unhex_upperHexDigit b
    simp only [Bool.false_eq_true, if_false, List.cons_append, List.nil_append]
    rw [QueryUnescape]
    simp only [if_true, h1, h2, and_self, h3]
  · obtain ⟨h1, h2⟩ := unreserved_not_special b h
    simp only [if_true, List.cons_append, List.nil_append]
    rw [QueryUnescape.eq_def]
    simp only [h1, h2, if_false]

theorem QueryUnescape_encode (s : Str) : QueryUnescape (encode s) = some s := by
  rw [encode_eq_flatMap]
  induction s with
  | nil => rfl
  | cons b s ih => rw [List.flatMap_cons, QueryUnescape_percentByte, ih]; rfl

theorem cut_append (sep : Byte) (a b : Str) (h : ∀ c ∈ a, c ≠ sep) :
    cut sep (a ++ sep :: b) = (a, b) := by
  have hp : ∀ c ∈ a, (fun x => decide (x ≠ sep)) c = true := by
    intro c hc; simpa using h c hc
  unfold cut
  rw [List.takeWhile_append_of_pos hp, List.dropWhile_append_of_pos hp]
  simp [List.takeWhile, List.dropWhile]

theorem cut_none (sep : Byte) (a : Str) (h : ∀ c ∈ a, c ≠ sep) : cut sep a = (a, []) := by
  have hp : ∀ c ∈ a, (fun x => decide (x ≠ sep)) c = true := by
    intro c hc; simpa using h c hc
  have : (a ++ []).takeWhile (fun x => decide (x ≠ sep)) =
      a ++ ([] : Str).takeWhile (fun x => decide (x ≠ sep)) := List.takeWhile_append_of_pos hp
  have h2 : (a ++ []).dropWhile (fun x => decide (x ≠ sep)) =
      ([] : Str).dropWhile (fun x => decide (x ≠ sep)) := List.dropWhile_append_of_pos hp
  rw [List.append_nil] at this h2
  unfold cut
  rw [this, h2]
  simp [List.takeWhile, List.dropWhile]

theorem queryPair_no_amp (k v : Str) : ∀ c ∈ queryPair k v, c ≠ byteOfChar '&' := by
  intro c hc
  simp only [queryPair, List.mem_append] at hc
  rcases hc with (hc | hc) | hc
  · exact (encode_plain k c hc).1
  · have : c = byteOfChar '=' := by simpa [str] using hc
    rw [this]; decide
  · exact (encode_plain v c hc).1

theorem queryPair_no_semicolon (k v : Str) : (queryPair k v).contains (byteOfChar ';') = false := by
  rw [Bool.eq_false_iff]
  intro h
  have hc : byteOfChar ';' ∈ queryPair k v := by simpa using h
  simp only [queryPair, List.mem_append] at hc
  rcases hc with (hc | hc) | hc
  · exact (encode_plain k _ hc).2.1 rfl
  · have : byteOfChar ';' = byteOfChar '=' := by simpa [str] using hc
    revert this; decide
  · exact (encode_plain v _ hc).2.1 rfl

theorem queryPair_ne_nil (k v : Str) : queryPair k v ≠ [] := by
  simp [queryPair, str]

theorem cut_queryPair (k v : Str) : cut (byteOfChar '=') (queryPair k v) = (encode k, encode v) := by
  have : queryPair k v = encode k ++ byteOfChar '=' :: encode v := by
    simp [queryPair, str]
  rw [this]
  exact cut_append _ _ _ (fun c hc => (encode_plain k c hc).2.2)

theorem parseQueryLoop_nil (fuel : Nat) (m : Values) (f : Bool) :
    parseQueryLoop fuel [] m f = (m, f) := by
  cases fuel <;> simp [parseQueryLoop]

theorem parseQueryLoop_last (fuel : Nat) (k v : Str) (m : Values) (f : Bool) :
    parseQueryLoop (fuel + 1) (queryPair k v) m f = (m.add k v, f) := by
  rw [parseQueryLoop, if_neg (queryPair_ne_nil k v), cut_none _ _ (queryPair_no_amp k v)]
  simp only [queryPair_no_semicolon, Bool.false_eq_true, if_false, if_neg (queryPair_ne_nil k v),
    cut_queryPair, QueryUnescape_encode, parseQueryLoop_nil]

theorem parseQueryLoop_more (fuel : Nat) (k v rest : Str) (m : Values) (f : Bool) :
    parseQueryLoop (fuel + 1) (queryPair k v ++ byteOfChar '&' :: rest) m f =
      parseQueryLoop fuel rest (m.add k v) f := by
  rw [parseQueryLoop, if_neg (by simp), cut_append _ _ _ (queryPair_no_amp k v)]
  simp only [queryPair_no_semicolon, Bool.false_eq_true, if_false, if_neg (queryPair_ne_nil k v),
    cut_queryPair, QueryUnescape_encode]

theorem parseQueryLoop_join (ps : List (Str × Str)) : ∀ (fuel : Nat) (m : Values) (f : Bool),
    (join (ps.map (fun p => queryPair p.1 p.2)) (str "&")).length ≤ fuel →
    parseQueryLoop fuel (join (ps.map (fun p => queryPair p.1 p.2)) (str "&")) m f = (addAll m ps, f) := by
  induction ps with
  | nil => intro fuel m f _; simp [join_nil, parseQueryLoop_nil, addAll]
  | cons p ps ih =>
    intro fuel m f hfuel
    cases ps with
    | nil =>
      simp only [List.map_cons, List.map_nil, join_singleton] at hfuel ⊢
      have hpos : 0 < (queryPair p.1 p.2).length := List.length_pos.mpr (queryPair_ne_nil _ _)
      obtain ⟨fuel', rfl⟩ : ∃ n, fuel = n + 1 := ⟨fuel - 1, by omega⟩
      rw [parseQueryLoop_last]; rfl
    | cons q ps =>
      simp only [List.map_cons] at hfuel ⊢
      rw [join_cons_cons] at hfuel ⊢
      have hamp : str "&" = [byteOfChar '&'] := rfl
      rw [hamp] at hfuel ⊢
      simp only [List.append_assoc, List.singleton_append, List.length_append, List.length_cons] at hfuel ⊢
      obtain ⟨fuel', rfl⟩ : ∃ n, fuel = n + 1 := ⟨fuel - 1, by omega⟩
      rw [parseQueryLoop_more]
      have := ih fuel' (m.add p.1 p.2) f (by simp only [List.map_cons, hamp]; omega)
      simp only [List.map_cons, hamp] at this
      rw [this]; rfl

theorem Values.get_nil (k : Str) : Values.get [] k = [] := rfl

theorem Values.get_cons (k' : Str) (vs : List Str) (m : Values) (k : Str) :
    Values.get ((k', vs) :: m) k = if k = k' then vs else Values.get m k := by
  unfold Values.get
  by_cases h : k = k'
  · subst h; simp [List.lookup]
  · have : (k == k') = false := by simpa using h
    simp [List.lookup, this, h]

theorem Values.get_of_not_mem (m : Values) (k : Str) (h : k ∉ m.map Prod.fst) : m.get k = [] := by
  induction m with
  | nil => rfl
  | cons e m ih =>
    obtain ⟨k', vs⟩ := e
    simp only [List.map_cons, List.mem_cons, not_or] at h
    rw [Values.get_cons, if_neg h.1, ih h.2]

theorem Values.add_get (m : Values) (k v k' : Str) :
    (m.add k v).get k' = if k' = k then m.get k' ++ [v] else m.get k' := by
  induction m with
  | nil =>
    by_cases h : k' = k <;> simp [Values.add, Values.get_cons, Values.get_nil, h]
  | cons e m ih =>
    obtain ⟨k0, vs⟩ := e
    by_cases h0 : k0 = k
    · subst h0
      simp only [Values.add, if_true, Values.get_cons]
      by_cases h : k' = k0 <;> simp [h]
    · simp only [Values.add, if_neg h0, Values.get_cons, ih]
      by_cases h : k' = k0
      · have : ¬ k' = k := by rw [h]; exact h0
        simp [h, this, h0]
      · simp [h]

theorem Values.add_keys (m : Values) (k v : Str) :
    (m.add k v).map Prod.fst = if k ∈ m.map Prod.fst then m.map Prod.fst else m.map Prod.fst ++ [k] := by
  induction m with
  | nil => simp [Values.add]
  | cons e m ih =>
    obtain ⟨k0, vs⟩ := e
    by_cases h0 : k0 = k
    · subst h0; simp [Values.add]
    · have h0' : ¬ k = k0 := fun h => h0 h.symm
      simp only [Values.add, if_neg h0, List.map_cons, ih, List.mem_cons, h0', false_or]
      by_cases hm : k ∈ m.map Prod.fst <;> simp [hm]

theorem Values.mem_add_keys (m : Values) (k v k' : Str) :
    k' ∈ (m.add k v).map Prod.fst ↔ k' ∈ m.map Prod.fst ∨ k' = k := by
  rw [Values.add_keys]
  by_cases hm : k ∈ m.map Prod.fst
  · rw [if_pos hm]
    constructor
    · exact Or.inl
    · rintro (h | h)
      · exact h
      · rw [h]; exact hm
  · rw [if_neg hm]; simp

theorem Values.Parsed_nil : Values.Parsed [] := by
  constructor
  · simp [Values.WellFormed]
  · intro k hk; simp at hk

theorem Values.Parsed_add (m : Values) (k v : Str) (h : m.Parsed) : (m.add k v).Parsed := by
  obtain ⟨hwf, hne⟩ := h
  constructor
  · unfold Values.WellFormed at hwf ⊢
    rw [Values.add_keys]
    by_cases hm : k ∈ m.map Prod.fst
    · rw [if_pos hm]; exact hwf
    · rw [if_neg hm]
      exact List.Nodup.append hwf (List.nodup_singleton k) (by simpa using hm)
  · intro k' hk'
    rw [Values.add_get]
    by_cases hk : k' = k
    · rw [if_pos hk]; simp
    · rw [if_neg hk]
      rcases (Values.mem_add_keys m k v k').mp hk' with h | h
      · exact hne k' h
      · exact absurd h hk

theorem parseQueryLoop_Parsed (fuel : Nat) : ∀ (q : Str) (m : Values) (f : Bool), m.Parsed →
    (parseQueryLoop fuel q m f).1.Parsed := by
  induction fuel with
  | zero => intro q m f h; exact h
  | succ fuel ih =>
    intro q m f h
    rw [parseQueryLoop]
    split
    · exact h
    · dsimp only
      split
      · exact ih _ _ _ h
      · split
        · exact ih _ _ _ h
        · split
          · exact ih _ _ _ h
          · split
            · exact ih _ _ _ h
            · exact ih _ _ _ (Values.Parsed_add _ _ _ h)

theorem ParseQuery_Parsed (q : Str) (m : Values) (h : ParseQuery q = some m) : m.Parsed := by
  unfold ParseQuery at h
  simp only at h
  split at h
  · exact absurd h (by simp)
  · injection h with h
    rw [← h]
    exact parseQueryLoop_Parsed _ _ _ _ Values.Parsed_nil

theorem addAll_get (ps : List (Str × Str)) : ∀ (m : Values) (k : Str),
    (addAll m ps).get k = m.get k ++ (ps.filter (fun p => p.1 = k)).map Prod.snd := by
  induction ps with
  | nil => intro m k; simp [addAll]
  | cons p ps ih =>
    intro m k
    have : addAll m (p :: ps) = addAll (m.add p.1 p.2) ps := rfl
    rw [this, ih, Values.add_get]
    by_cases h : k = p.1
    · subst h; simp [List.filter]
    · have h' : ¬ p.1 = k := fun e => h e.symm
      simp [List.filter, h, h']

theorem addAll_mem_keys (ps : List (Str × Str)) : ∀ (m : Values) (k : Str),
    k ∈ (addAll m ps).map Prod.fst ↔ k ∈ m.map Prod.fst ∨ k ∈ ps.map Prod.fst := by
  induction ps with
  | nil => intro m k; simp [addAll]
  | cons p ps ih =>
    intro m k
    have : addAll m (p :: ps) = addAll (m.add p.1 p.2) ps := rfl
    rw [this, ih, Values.mem_add_keys]
    simp only [List.map_cons, List.mem_cons]
    tauto

theorem addAll_Parsed (ps : List (Str × Str)) : ∀ (m : Values), m.Parsed → (addAll m ps).Parsed := by
  induction ps with
  | nil => intro m h; exact h
  | cons p ps ih => intro m h; exact ih _ (Values.Parsed_add _ _ _ h)

theorem filter_pairs (f : Str → List Str) (k : Str) : ∀ (ks : List Str), ks.Nodup →
    ((ks.flatMap (fun k' => (f k').map (fun v => (k', v)))).filter (fun p => p.1 = k)).map Prod.snd =
      if k ∈ ks then f k else [] := by
  intro ks
  induction ks with
  | nil => intro _; simp
  | cons k0 ks ih =>
    intro hnd
    rw [List.nodup_cons] at hnd
    rw [List.flatMap_cons, List.filter_append, List.map_append, ih hnd.2]
    by_cases h : k0 = k
    · subst h
      have : ((f k0).map (fun v => (k0, v))).filter (fun p => decide (p.1 = k0)) =
          (f k0).map (fun v => (k0, v)) := by
        rw [List.filter_eq_self]; intro p hp
        simp only [List.mem_map] at hp
        obtain ⟨v, _, rfl⟩ := hp
        simp
      rw [this]
      simp [hnd.1, List.map_map, Function.comp_def]
    · have : ((f k0).map (fun v => (k0, v))).filter (fun p => decide (p.1 = k)) = [] := by
        rw [List.filter_eq_nil_iff]; intro p hp
        simp only [List.mem_map] at hp
        obtain ⟨v, _, rfl⟩ := hp
        simpa using h
      have h' : ¬ k = k0 := fun e => h e.symm
      rw [this]
      simp [h']

theorem sortStrings_nil : sortStrings [] = [] := rfl

theorem canonicalQuery_eq_join (m : Values) (h : m.Parsed) :
    canonicalQuery m = join ((sortedPairs m).map (fun p => queryPair p.1 p.2)) (str "&") := by
  unfold canonicalQuery
  have hq := queryOuter_eq m (sortStrings (m.map Prod.fst))
    (fun k hk => h.2 k ((mem_sortStrings _ _).mp hk)) 0 []
  rw [hq]
  simp only [gt_iff_lt, lt_self_iff_false, false_and, if_false, List.nil_append, List.append_nil]
  congr 1
  simp [queryPairs, sortedPairs, List.map_flatMap, List.map_map, Function.comp_def]

/-- C10: when a raw query parses to a map, the canonical query string built
from the map parses again, to a map with the same names in which every name
has the ascending-sorted list of the values the first map gives it. -/
theorem canonicalQuery_roundtrip (q : Str) (m : Values) (h : ParseQuery q = some m) :
    ∃ m2 : Values, ParseQuery (canonicalQuery m) = some m2 ∧
      m2.WellFormed ∧
      (∀ k, k ∈ m2.map Prod.fst ↔ k ∈ m.map Prod.fst) ∧
      (∀ k, m2.get k = sortStrings (m.get k)) ∧
      (∀ k, (m2.get k).Sorted (· ≤ ·) ∧ (m2.get k).Perm (m.get k)) := by
  have hp : m.Parsed := ParseQuery_Parsed q m h
  have hloop := parseQueryLoop_join (sortedPairs m) (canonicalQuery m).length [] false
    (by rw [canonicalQuery_eq_join m hp])
  rw [← canonicalQuery_eq_join m hp] at hloop
  have hget : ∀ k, (addAll [] (sortedPairs m)).get k = sortStrings (m.get k) := by
    intro k
    rw [addAll_get, Values.get_nil, List.nil_append]
    have hnd : (sortStrings (m.map Prod.fst)).Nodup := (sortStrings_perm _).nodup_iff.mpr hp.1
    have := filter_pairs (fun k => sortStrings (m.get k)) k _ hnd
    unfold sortedPairs
    rw [this]
    by_cases hk : k ∈ m.map Prod.fst
    · rw [if_pos ((mem_sortStrings _ _).mpr hk)]
    · rw [if_neg (fun hk' => hk ((mem_sortStrings _ _).mp hk')), Values.get_of_not_mem m k hk,
        sortStrings_nil]
  refine ⟨addAll [] (sortedPairs m), ?_, (addAll_Parsed _ _ Values.Parsed_nil).1, ?_, hget, ?_⟩
  · unfold ParseQuery
    simp only [hloop, Bool.false_eq_true, if_false]
  · intro k
    rw [addAll_mem_keys]
    have hkeys : k ∈ (sortedPairs m).map Prod.fst ↔
        ∃ k2 ∈ sortStrings (m.map Prod.fst), ∃ v ∈ sortStrings (m.get k2), k2 = k := by
      simp only [sortedPairs, List.map_flatMap, List.map_map, List.mem_flatMap, List.mem_map,
        Function.comp_def]
    rw [hkeys]
    constructor
    · rintro (hk | ⟨k2, hk2, v, _, rfl⟩)
      · simp at hk
      · exact (mem_sortStrings _ _).mp hk2
    · intro hk
      obtain ⟨v, hv⟩ := List.exists_mem_of_ne_nil _ (sortStrings_ne_nil _ (hp.2 k hk))
      exact Or.inr ⟨k, (mem_sortStrings _ _).mpr hk, v, hv, rfl⟩
  · intro k
    rw [hget]
    exact ⟨sortStrings_sorted _, sortStrings_perm _⟩

/-- C10, witness: a raw query with a repeated name, an empty value and escaped
`&`, `=`, `+`, `%` and space. -/
theorem canonicalQuery_roundtrip_witness :
    ParseQuery (str "b=%26%3D&a=x+y&b=%25%2B&a=") =
      some [(str "b", [str "&=", str "%+"]), (str "a", [str "x y", str ""])] ∧
    canonicalQuery [(str "b", [str "&=", str "%+"]), (str "a", [str "x y", str ""])] =
      str "a=&a=x%20y&b=%25%2B&b=%26%3D" ∧
    ∃ m2 : Values,
      ParseQuery (canonicalQuery [(str "b", [str "&=", str "%+"]), (str "a", [str "x y", str ""])]) =
        some m2 ∧
      (∀ k, m2.get k =
        sortStrings (Values.get [(str "b", [str "&=", str "%+"]), (str "a", [str "x y", str ""])] k)) :=
  ⟨by decide, by decide,
    (canonicalQuery_roundtrip (str "b=%26%3D&a=x+y&b=%25%2B&a=")
      [(str "b", [str "&=", str "%+"]), (str "a", [str "x y", str ""])] (by decide)).imp
      (fun _ hm => ⟨hm.1, hm.2.2.2.1⟩)⟩

/-! ## The canonical headers and the canonical request -/

theorem sortStrings_idem (l : List Str) : sortStrings (sortStrings l) = sortStrings l :=
  List.Sorted.insertionSort_eq (sortStrings_sorted l)

theorem Values.set_get (m : Values) (k : Str) (vs : List Str) (k' : Str) :
    (m.set k vs).get k' = if k' = k ∧ k ∈ m.map Prod.fst then vs else m.get k' := by
  induction m with
  | nil => simp [Values.set, Values.get_nil]
  | cons e m ih =>
    obtain ⟨k0, vs0⟩ := e
    have hset : Values.set ((k0, vs0) :: m) k vs =
        (if k0 = k then (k0, vs) else (k0, vs0)) :: Values.set m k vs := by
      simp [Values.set]
    rw [hset]
    by_cases h0 : k0 = k
    · subst h0
      simp only [if_true, Values.get_cons, List.map_cons, List.mem_cons, true_or, and_true]
      by_cases h : k' = k0
      · simp [h]
      · simp [h, ih]
    · have h0' : ¬ k = k0 := fun e => h0 e.symm
      simp only [if_neg h0, Values.get_cons, List.map_cons, List.mem_cons, h0', false_or, ih]
      by_cases h : k' = k0
      · have : ¬ k' = k := by rw [h]; exact h0
        simp [h, this, h0]
      · simp [h]

theorem Values.set_sorted_get (hdr : Values) (k k' : Str) :
    sortStrings ((hdr.set k (sortStrings (hdr.get k))).get k') = sortStrings (hdr.get k') := by
  rw [Values.set_get]
  by_cases h : k' = k ∧ k ∈ hdr.map Prod.fst
  · rw [if_pos h, h.1, sortStrings_idem]
  · rw [if_neg h]

theorem headerLines_eq (host : Str) (hm : List (Str × Str)) (hdr0 : Values) (names : List Str) :
    ∀ (crb : Str) (hdr : Values), (∀ k, sortStrings (hdr.get k) = sortStrings (hdr0.get k)) →
    (headerLines host hm names crb hdr).1 =
      crb ++ names.flatMap (fun n => n ++ str ":" ++ headerValue host hm hdr0 n ++ str "\n") := by
  induction names with
  | nil => intro crb hdr _; simp [headerLines]
  | cons n names ih =>
    intro crb hdr hinv
    rw [headerLines]
    by_cases hn : n = str "host"
    · simp only [hn, if_true]
      rw [ih _ _ hinv]
      simp [headerValue, List.append_assoc]
    · simp only [if_neg hn]
      rw [ih _ _ (fun k => by rw [Values.set_sorted_get]; exact hinv k), hinv]
      simp [headerValue, hn, List.append_assoc]

theorem collectHeaders_eq (P : Prims) (es : Values) : ∀ (hs : List Str) (hm : List (Str × Str)),
    collectHeaders P es hs hm =
      (hs ++ es.map (fun e => ToLower P (TrimSpace P e.1)),
       (es.map (fun e => (ToLower P (TrimSpace P e.1), e.1))).reverse ++ hm) := by
  induction es with
  | nil => intro hs hm; simp [collectHeaders]
  | cons e es ih =>
    intro hs hm
    obtain ⟨i, vs⟩ := e
    rw [collectHeaders, ih]
    simp [List.append_assoc]

theorem lookup_append_of_not_mem (a b : List (Str × Str)) (name : Str)
    (h : name ∉ a.map Prod.fst) : (a ++ b).lookup name = b.lookup name := by
  induction a with
  | nil => rfl
  | cons e a ih =>
    obtain ⟨n0, i0⟩ := e
    simp only [List.map_cons, List.mem_cons, not_or] at h
    have hb : (name == n0) = false := by simpa using h.1
    simp [List.lookup, hb, ih h.2]

theorem exists_last_key (l : List (Str × Str)) (name : Str) (h : name ∈ l.map Prod.fst) :
    ∃ pre post i, l = pre ++ (name, i) :: post ∧ name ∉ post.map Prod.fst := by
  induction l with
  | nil => simp at h
  | cons e l ih =>
    by_cases ht : name ∈ l.map Prod.fst
    · obtain ⟨pre, post, i, hl, hpost⟩ := ih ht
      exact ⟨e :: pre, post, i, by rw [hl]; rfl, hpost⟩
    · obtain ⟨n0, i0⟩ := e
      simp only [List.map_cons, List.mem_cons] at h
      rcases h with h | h
      · subst h; exact ⟨[], l, i0, rfl, ht⟩
      · exact absurd h ht

theorem headersMapGet_collect_last (P : Prims) (hdr : Values) (name : Str)
    (h : name ∈ hdr.map (fun e => ToLower P (TrimSpace P e.1))) :
    ∃ pre post, hdr.map Prod.fst =
        pre ++ headersMapGet (collectHeaders P hdr [] []).2 name :: post ∧
      ToLower P (TrimSpace P (headersMapGet (collectHeaders P hdr [] []).2 name)) = name ∧
      ∀ j ∈ post, ToLower P (TrimSpace P j) ≠ name := by
  rw [collectHeaders_eq]
  simp only [List.append_nil]
  have hk : name ∈ (hdr.map (fun e => (ToLower P (TrimSpace P e.1), e.1))).map Prod.fst := by
    rw [List.map_map]; exact h
  obtain ⟨pre, post, i, hl, hpost⟩ := exists_last_key _ name hk
  have hlook : headersMapGet (hdr.map (fun e => (ToLower P (TrimSpace P e.1), e.1))).reverse name = i := by
    unfold headersMapGet
    rw [hl, List.reverse_append, List.reverse_cons, List.append_assoc,
      lookup_append_of_not_mem _ _ _ (by rw [List.map_reverse, List.mem_reverse]; exact hpost)]
    simp [List.lookup]
  rw [hlook]
  have hkeys : hdr.map Prod.fst = (hdr.map (fun e => (ToLower P (TrimSpace P e.1), e.1))).map Prod.snd := by
    rw [List.map_map]; rfl
  have hnorm : ∀ p ∈ hdr.map (fun e => (ToLower P (TrimSpace P e.1), e.1)),
      ToLower P (TrimSpace P p.2) = p.1 := by
    intro p hp
    rw [List.mem_map] at hp
    obtain ⟨e, _, rfl⟩ := hp
    rfl
  refine ⟨pre.map Prod.snd, post.map Prod.snd, ?_, ?_, ?_⟩
  · rw [hkeys, hl]; simp
  · exact hnorm (name, i) (by rw [hl]; simp)
  · intro j hj
    rw [List.mem_map] at hj
    obtain ⟨p, hp, rfl⟩ := hj
    rw [hnorm p (by rw [hl]; simp [hp])]
    intro hpn
    exact hpost (List.mem_map.mpr ⟨p, hp, hpn⟩)

/-- C1: when `CreateCanonicalRequest` succeeds, the bytes it returns are the
method, the canonical URI, the canonical query string, the canonical headers
block, the signed header names joined with `;` and the lowercase-hex SHA-256 of
the body, separated by newlines.  The headers block has one line
`name:value\n` per returned name, in the order of the returned list; the value
of `host` is the request's Host, and any other value is the values of the
header of that (lowercased, trimmed) name, sorted and joined with commas (of
the last such header in iteration order, should several headers share the
name).  The digest has 64 characters (for an empty body it is that of zero
bytes, `body = []`). -/
theorem CreateCanonicalRequest_spec (P : Prims) (r : Request) (bytes : Str) (names : List Str)
    (h : CreateCanonicalRequest P r = .ok (bytes, names)) :
    ∃ (cp : Str) (query : Values) (body : Str) (value : Str → Str),
      canonicalPath r.Path = .ok cp ∧ ParseQuery r.RawQuery = some query ∧ r.Body = .reads body ∧
      bytes = r.Method ++ str "\n" ++ cp ++ str "\n" ++ canonicalQuery query ++ str "\n" ++
        names.flatMap (fun n => n ++ str ":" ++ value n ++ str "\n") ++ str "\n" ++
        join names (str ";") ++ str "\n" ++ hexLower (P.sha256 body) ∧
      value (str "host") = r.Host ∧
      (∀ n ∈ names, n ≠ str "host" → ∃ (i : Str) (pre post : List Str),
        r.Header.map Prod.fst = pre ++ i :: post ∧
        ToLower P (TrimSpace P i) = n ∧ (∀ j ∈ post, ToLower P (TrimSpace P j) ≠ n) ∧
        value n = join (sortStrings (r.Header.get i)) (str ",")) ∧
      (hexLower (P.sha256 body)).length = 64 ∧
      (∀ c ∈ hexLower (P.sha256 body), isLowerHex c) := by
  unfold CreateCanonicalRequest runCanonicalRequest at h
  cases hcp : canonicalPath r.Path with
  | fault => rw [hcp] at h; simp at h
  | error e => rw [hcp] at h; simp at h
  | ok cp =>
    cases hq : ParseQuery r.RawQuery with
    | none => rw [hcp, hq] at h; simp at h
    | some query =>
      cases hb : r.Body with
      | absent => rw [hcp, hq, hb] at h; simp at h
      | fails data => rw [hcp, hq, hb] at h; simp at h
      | reads body =>
        rw [hcp, hq, hb] at h
        simp only [Outcome.ok.injEq, Prod.mk.injEq] at h
        obtain ⟨hbytes, hnames⟩ := h
        have hcqs : (if (canonicalQuery query).length > 0 then
            r.Method ++ str "\n" ++ cp ++ str "\n" ++ canonicalQuery query
            else r.Method ++ str "\n" ++ cp ++ str "\n") =
            r.Method ++ str "\n" ++ cp ++ str "\n" ++ canonicalQuery query := by
          by_cases hl : (canonicalQuery query).length > 0
          · rw [if_pos hl]
          · rw [if_neg hl]
            have : canonicalQuery query = [] := by
              cases hc : canonicalQuery query with
              | nil => rfl
              | cons a l => rw [hc] at hl; simp at hl
            rw [this, List.append_nil]
        rw [hcqs, headerLines_eq r.Host _ r.Header _ _ r.Header (fun _ => rfl), hnames,
          fmtHex_eq] at hbytes
        refine ⟨cp, query, body, headerValue r.Host (collectHeaders P r.Header [] []).2 r.Header,
          rfl, rfl, rfl, ?_, ?_, ?_, ?_, hexLower_isLowerHex _⟩
        · rw [← hbytes]
        · simp [headerValue]
        · intro n hn hhost
          rw [← hnames, mem_sortStrings, collectHeaders_eq] at hn
          simp only [List.nil_append, List.mem_append, List.mem_singleton] at hn
          rcases hn with hn | hn
          · obtain ⟨pre, post, h1, h2, h3⟩ := headersMapGet_collect_last P r.Header n hn
            refine ⟨_, pre, post, h1, h2, h3, ?_⟩
            simp [headerValue, hhost]
          · exact absurd hn hhost
        · rw [hexLower_length, P.sha256_size]

set_option maxRecDepth 10000 in
/-- C1, witness: a GET request with one header and an empty body. -/
theorem CreateCanonicalRequest_spec_witness :
    CreateCanonicalRequest samplePrims sampleRequest =
      .ok (str "GET\n/a/\nx=1\nhost:h.com\nx-b:a,b\n\nhost;x-b\n" ++
        hexLower (samplePrims.sha256 []), [str "host", str "x-b"]) ∧
    ∃ (cp : Str) (query : Values) (value : Str → Str),
      canonicalPath sampleRequest.Path = .ok cp ∧ ParseQuery sampleRequest.RawQuery = some query ∧
      str "GET\n/a/\nx=1\nhost:h.com\nx-b:a,b\n\nhost;x-b\n" ++ hexLower (samplePrims.sha256 []) =
        sampleRequest.Method ++ str "\n" ++ cp ++ str "\n" ++ canonicalQuery query ++ str "\n" ++
        [str "host", str "x-b"].flatMap (fun n => n ++ str ":" ++ value n ++ str "\n") ++ str "\n" ++
        join [str "host", str "x-b"] (str ";") ++ str "\n" ++ hexLower (samplePrims.sha256 []) := by
  refine ⟨by decide, ?_⟩
  obtain ⟨cp, query, body, value, h1, h2, h3, h4, _⟩ :=
    CreateCanonicalRequest_spec samplePrims sampleRequest
      (str "GET\n/a/\nx=1\nhost:h.com\nx-b:a,b\n\nhost;x-b\n" ++ hexLower (samplePrims.sha256 []))
      [str "host", str "x-b"] (by decide)
  have hb : body = [] := by
    have : sampleRequest.Body = .reads [] := rfl
    rw [this] at h3; injection h3 with h3; exact h3.symm
  rw [hb] at h4
  exact ⟨cp, query, value, h1, h2, h4⟩

/-! ## Running the builder on a request -/

theorem runCanonicalRequest_eq (P : Prims) (r : Request) (cp : Str) (query : Values)
    (hs : List Str) (hm : List (Str × Str)) (names : List Str) (block : Str) (hdr2 : Values)
    (data : Str)
    (hp : canonicalPath r.Path = .ok cp) (hq : ParseQuery r.RawQuery = some query)
    (hc : collectHeaders P r.Header [] [] = (hs, hm))
    (hn : sortStrings (hs ++ [str "host"]) = names)
    (hl : headerLines r.Host hm names
      (r.Method ++ str "\n" ++ cp ++ str "\n" ++ canonicalQuery query ++ str "\n") r.Header =
        (block, hdr2))
    (hb : r.Body = .reads data) :
    runCanonicalRequest P r =
      (.ok (block ++ str "\n" ++ join names (str ";") ++ str "\n" ++ fmtHex (P.sha256 data), names),
        hdr2) := by
  have hcqs : (if (canonicalQuery query).length > 0 then
      r.Method ++ str "\n" ++ cp ++ str "\n" ++ canonicalQuery query
      else r.Method ++ str "\n" ++ cp ++ str "\n") =
      r.Method ++ str "\n" ++ cp ++ str "\n" ++ canonicalQuery query := by
    by_cases hlen : (canonicalQuery query).length > 0
    · rw [if_pos hlen]
    · rw [if_neg hlen]
      have : canonicalQuery query = [] := by
        cases hcq : canonicalQuery query with
        | nil => rfl
        | cons a l => rw [hcq] at hlen; simp at hlen
      rw [this, List.append_nil]
  unfold runCanonicalRequest
  simp only [hp, hq, hc, hn, hb, hcqs, hl]

/-- C11, failing input: two requests whose header maps hold the same two
headers `Foo: 1` and `foo: 2` and differ only in the order in which the map is
visited get different canonical headers blocks: both lines `foo:` carry the
values of the header visited last. -/
theorem CreateCanonicalRequest_header_order (P : Prims) :
    caseRequestB.Header.Perm caseRequestA.Header ∧
    caseRequestA.Header.WellFormed ∧ caseRequestB.Header.WellFormed ∧
    caseRequestA.Host = caseRequestB.Host ∧
    CreateCanonicalRequest P caseRequestA =
      .ok (str "GET\n/\n\nfoo:2\nfoo:2\nhost:h.com\n" ++ str "\n" ++
        join [str "foo", str "foo", str "host"] (str ";") ++ str "\n" ++ fmtHex (P.sha256 []),
        [str "foo", str "foo", str "host"]) ∧
    CreateCanonicalRequest P caseRequestB =
      .ok (str "GET\n/\n\nfoo:1\nfoo:1\nhost:h.com\n" ++ str "\n" ++
        join [str "foo", str "foo", str "host"] (str ";") ++ str "\n" ++ fmtHex (P.sha256 []),
        [str "foo", str "foo", str "host"]) ∧
    CreateCanonicalRequest P caseRequestA ≠ CreateCanonicalRequest P caseRequestB := by
  have hA : CreateCanonicalRequest P caseRequestA =
      .ok (str "GET\n/\n\nfoo:2\nfoo:2\nhost:h.com\n" ++ str "\n" ++
        join [str "foo", str "foo", str "host"] (str ";") ++ str "\n" ++ fmtHex (P.sha256 []),
        [str "foo", str "foo", str "host"]) := by
    unfold CreateCanonicalRequest
    rw [runCanonicalRequest_eq P caseRequestA (str "/") [] [str "foo", str "foo"]
      [(str "foo", str "foo"), (str "foo", str "Foo")] [str "foo", str "foo", str "host"]
      (str "GET\n/\n\nfoo:2\nfoo:2\nhost:h.com\n") caseRequestA.Header []
      (by decide) (by decide) rfl (by decide) (by decide) rfl]
  have hB : CreateCanonicalRequest P caseRequestB =
      .ok (str "GET\n/\n\nfoo:1\nfoo:1\nhost:h.com\n" ++ str "\n" ++
        join [str "foo", str "foo", str "host"] (str ";") ++ str "\n" ++ fmtHex (P.sha256 []),
        [str "foo", str "foo", str "host"]) := by
    unfold CreateCanonicalRequest
    rw [runCanonicalRequest_eq P caseRequestB (str "/") [] [str "foo", str "foo"]
      [(str "foo", str "Foo"), (str "foo", str "foo")] [str "foo", str "foo", str "host"]
      (str "GET\n/\n\nfoo:1\nfoo:1\nhost:h.com\n") caseRequestB.Header []
      (by decide) (by decide) rfl (by decide) (by decide) rfl]
  refine ⟨by decide, by decide, by decide, rfl, hA, hB, ?_⟩
  rw [hA, hB]
  intro h
  injection h with h
  injection h with h1 _
  have h2 := List.append_cancel_right h1
  revert h2
  decide

/-- C12, failing input: a request with an empty URL path, whose raw query
parses and whose body reads to the end, makes `CreateCanonicalRequest` panic
on `r.URL.Path[len(r.URL.Path)-1]`; so does every request with an empty path. -/
theorem CreateCanonicalRequest_empty_path_fault (P : Prims) :
    ParseQuery emptyPathRequest.RawQuery = some [] ∧ emptyPathRequest.Body = .reads [] ∧
    CreateCanonicalRequest P emptyPathRequest = .fault ∧
    ∀ (method rawQuery host : Str) (hdr : Values) (body : Body),
      CreateCanonicalRequest P ⟨method, [], rawQuery, hdr, host, body⟩ = .fault :=
  ⟨by decide, rfl, rfl, fun _ _ _ _ _ => rfl⟩

/-- With a path that is not empty, a raw query that parses and a body that
reads to the end, `CreateCanonicalRequest` returns a result. -/
theorem CreateCanonicalRequest_ok (P : Prims) (r : Request) (query : Values) (data : Str)
    (hp : r.Path ≠ []) (hq : ParseQuery r.RawQuery = some query) (hb : r.Body = .reads data) :
    ∃ bytes names, CreateCanonicalRequest P r = .ok (bytes, names) := by
  unfold CreateCanonicalRequest runCanonicalRequest
  rw [canonicalPath_eq r.Path hp]
  simp only [hq, hb]
  exact ⟨_, _, rfl⟩

/-- C13: `CreateStringToSign` returns an error exactly when the date does not
parse; with an error it returns the nil slice; it never panics; and whether it
fails does not depend on the canonical request or the credential scope. -/
theorem CreateStringToSign_error_iff (P : Prims) (cr date cs : Str) :
    ((CreateStringToSign P cr date cs).err ≠ none ↔ P.parseRFC1123 date = none) ∧
    ((CreateStringToSign P cr date cs).err ≠ none → (CreateStringToSign P cr date cs).value = none) ∧
    CreateStringToSign P cr date cs ≠ .fault ∧
    (∀ cr2 cs2 : Str, (CreateStringToSign P cr2 date cs2).err = (CreateStringToSign P cr date cs).err) ∧
    (P.parseRFC1123 date ≠ none → ∃ out, CreateStringToSign P cr date cs = .ok out) := by
  unfold CreateStringToSign
  cases h : P.parseRFC1123 date with
  | none => simp [Outcome.err, Outcome.value]
  | some d => simp [Outcome.err, Outcome.value]

/-! ## The two builders -/

/-- C15: `createCanonicalRequest` and `CreateCanonicalRequest` return the same
canonical bytes, the same signed header names and the same error (or panic) for
every request, and leave the same header map behind. -/
theorem createCanonicalRequest_eq (P : Prims) (r : Request) :
    createCanonicalRequest P r = CreateCanonicalRequest P r ∧
    (createCanonicalRequest P r).value = (CreateCanonicalRequest P r).value ∧
    (createCanonicalRequest P r).err = (CreateCanonicalRequest P r).err ∧
    (runCanonicalRequestLower P r).2 = headerAfter P r := by
  have h : runCanonicalRequestLower P r = runCanonicalRequest P r := by
    rfl
  have h1 : createCanonicalRequest P r = CreateCanonicalRequest P r := by
    unfold createCanonicalRequest CreateCanonicalRequest
    rw [h]
  refine ⟨h1, by rw [h1], by rw [h1], ?_⟩
  unfold headerAfter
  rw [h]

/-! ## The request after the call -/

/-- C16, failing input: for a request with the header `X-B: b, a` the call
succeeds and leaves the header as `X-B: a, b`: `sort.Strings(values)` sorts the
slice of the request's header map in place. -/
theorem CreateCanonicalRequest_sorts_header_in_place (P : Prims) :
    sampleRequest.Header = [(str "X-B", [str "b", str "a"])] ∧
    (∃ bytes names, CreateCanonicalRequest P sampleRequest = .ok (bytes, names)) ∧
    headerAfter P sampleRequest = [(str "X-B", [str "a", str "b"])] ∧
    headerAfter P sampleRequest ≠ sampleRequest.Header := by
  have h : headerAfter P sampleRequest = [(str "X-B", [str "a", str "b"])] := rfl
  refine ⟨rfl, CreateCanonicalRequest_ok P sampleRequest [(str "x", [str "1"])] [] (by decide)
    (by decide) rfl, h, ?_⟩
  rw [h]
  decide

/-! ## Percent-encoding of unreserved strings and decoding -/

/-- C18: on a string of unreserved bytes (letters, digits, `-`, `_`, `.`, `~`),
the empty string included, `encode` is the identity, and so encoding twice is
encoding once. -/
theorem encode_unreserved (s : Str) (h : ∀ c ∈ s, isUnreservedByte c = true) :
    encode s = s ∧ encode (encode s) = encode s ∧ encode [] = [] := by
  have h1 : encode s = s := by
    rw [encode_eq_flatMap]
    apply flatMap_percentByte_of_all
    rw [List.any_eq_false]
    intro c hc
    have := isUnreservedByte_eq c
    rw [h c hc] at this
    cases hm : mustEscape c
    · simp
    · rw [hm] at this; simp at this
  exact ⟨h1, by rw [h1, h1], rfl⟩

set_option maxRecDepth 100000 in
/-- C18, witness: a string with a letter of each case, digits and the four marks. -/
theorem encode_unreserved_witness :
    (∀ c ∈ str "Az09-_.~", isUnreservedByte c = true) ∧ encode (str "Az09-_.~") = str "Az09-_.~" :=
  ⟨by decide, (encode_unreserved (str "Az09-_.~") (by decide)).1⟩

/-- C19, failing input: for a request with a `Host` header the returned list
of signed header names is `host, host`: the name `host` occurs twice. -/
theorem CreateCanonicalRequest_host_twice (P : Prims) :
    hostHeaderRequest.Header.WellFormed ∧
    (CreateCanonicalRequest P hostHeaderRequest).value.map Prod.snd =
      some [str "host", str "host"] ∧
    List.count (str "host") [str "host", str "host"] = 2 ∧
    ¬ [str "host", str "host"].Nodup :=
  ⟨by decide, rfl, by decide, by decide⟩

set_option maxRecDepth 100000 in
theorem hexValue_upperHexDigit : ∀ b : Byte,
    (Fin.ofNat (unhex (upperHexDigit (b.val / 16)) * 16 +
      unhex (upperHexDigit (b.val % 16))) : Byte) = b := by
  decide

theorem percentDecode_escaped (a b : Byte) (rest : Str) :
    percentDecode (byteOfChar '%' :: a :: b :: rest) =
      Fin.ofNat (unhex a * 16 + unhex b) :: percentDecode rest := by
  rw [percentDecode, if_pos rfl]

theorem percentDecode_plain (c : Byte) (rest : Str) (h : c ≠ byteOfChar '%') :
    percentDecode (c :: rest) = c :: percentDecode rest := by
  cases rest with
  | nil => simp [percentDecode]
  | cons a rest =>
    cases rest with
    | nil => simp [percentDecode]
    | cons b rest => rw [percentDecode, if_neg h]

theorem percentDecode_percentByte (b : Byte) (rest : Str) :
    percentDecode (percentByte b ++ rest) = b :: percentDecode rest := by
  unfold percentByte
  cases h : isUnreservedByte b
  · simp only [Bool.false_eq_true, if_false, List.cons_append, List.nil_append]
    rw [percentDecode_escaped, hexValue_upperHexDigit]
  · obtain ⟨h1, _⟩ := unreserved_not_special b h
    simp only [if_true, List.cons_append, List.nil_append]
    exact percentDecode_plain b rest h1

theorem percentDecode_encode (s : Str) : percentDecode (encode s) = s := by
  rw [encode_eq_flatMap]
  induction s with
  | nil => simp [percentDecode]
  | cons b s ih => rw [List.flatMap_cons, percentDecode_percentByte, ih]

set_option maxRecDepth 100000 in
theorem percentByte_chars : ∀ b : Byte, (percentByte b).all (fun c =>
    isUnreservedByte c || decide (c = byteOfChar '%')) = true := by
  decide

/-- C20: `encode` is injective, replacing every `%XY` triple of `encode(s)` by
the byte with hexadecimal value `XY` gives `s` back, and `encode(s)` contains
only unreserved bytes and `%`. -/
theorem encode_injective :
    Function.Injective encode ∧
    (∀ s : Str, percentDecode (encode s) = s) ∧
    (∀ s : Str, ∀ c ∈ encode s, isUnreservedByte c = true ∨ c = byteOfChar '%') := by
  refine ⟨?_, percentDecode_encode, ?_⟩
  · intro s t h
    have := congrArg percentDecode h
    rwa [percentDecode_encode, percentDecode_encode] at this
  · intro s c hc
    rw [encode_eq_flatMap, List.mem_flatMap] at hc
    obtain ⟨b, _, hb⟩ := hc
    have h := percentByte_chars b
    rw [List.all_eq_true] at h
    simpa using h c hb

/-! ## Sensitivity of the signing key -/

theorem hmacKeyBlock_length (P : Prims) (key : Str) : (hmacKeyBlock P key).length = 64 := by
  unfold hmacKeyBlock blockSize
  by_cases h : key.length > 64
  · simp [h, P.sha256_size]
  · simp only [h, if_false, List.length_append, List.length_replicate]
    omega

theorem hmacKeyBlock_digest (P : Prims) (key : Str) (h : key.length = 32) :
    hmacKeyBlock P key = key ++ List.replicate 32 0 := by
  unfold hmacKeyBlock blockSize
  simp [h]

theorem hmacKeyBlock_short (P : Prims) (key : Str) (h : key.length ≤ 64) :
    hmacKeyBlock P key = key ++ List.replicate (64 - key.length) 0 := by
  have h2 : ¬ key.length > 64 := by omega
  unfold hmacKeyBlock blockSize
  simp only [if_neg h2]

theorem hmacKeyBlock_trailing_zero (P : Prims) (key : Str) (h : key.length < 64) :
    hmacKeyBlock P (key ++ [0]) = hmacKeyBlock P key := by
  have hl : (key ++ [0]).length = key.length + 1 := by simp
  have e3 : 64 - key.length = (64 - (key.length + 1)) + 1 := by omega
  rw [hmacKeyBlock_short P (key ++ [0]) (by omega), hmacKeyBlock_short P key (by omega), hl, e3,
    List.replicate_succ, List.append_assoc]
  rfl

set_option maxRecDepth 100000 in
theorem xor_pad_inverse : ∀ b : Byte,
    (Fin.ofNat ((Fin.ofNat (b.val ^^^ 0x36) : Byte).val ^^^ 0x36) : Byte) = b ∧
    (Fin.ofNat ((Fin.ofNat (b.val ^^^ 0x5c) : Byte).val ^^^ 0x5c) : Byte) = b := by
  decide

theorem xorPad_length (pad : Nat) (k : Str) : (xorPad pad k).length = k.length := by
  simp [xorPad]

theorem xorPad_inner_injective (a b : Str) (h : xorPad 0x36 a = xorPad 0x36 b) : a = b := by
  have hinv : ∀ k : Str, xorPad 0x36 (xorPad 0x36 k) = k := by
    intro k
    induction k with
    | nil => rfl
    | cons c k ih =>
      simp only [xorPad, List.map_cons, List.map_map] at ih ⊢
      rw [(xor_pad_inverse c).1]
      congr 1
  rw [← hinv a, h, hinv b]

theorem xorPad_outer_injective (a b : Str) (h : xorPad 0x5c a = xorPad 0x5c b) : a = b := by
  have hinv : ∀ k : Str, xorPad 0x5c (xorPad 0x5c k) = k := by
    intro k
    induction k with
    | nil => rfl
    | cons c k ih =>
      simp only [xorPad, List.map_cons, List.map_map] at ih ⊢
      rw [(xor_pad_inverse c).2]
      congr 1
  rw [← hinv a, h, hinv b]

theorem hmacSHA256_eq_outer (P : Prims) (key msg : Str) :
    hmacSHA256 P key msg = P.sha256 (hmacOuter P key msg) := rfl

theorem hmacSHA256_eq_cases (P : Prims) (key msg key2 msg2 : Str)
    (h : hmacSHA256 P key msg = hmacSHA256 P key2 msg2) :
    hmacCollides P key msg key2 msg2 ∨ (hmacKeyBlock P key = hmacKeyBlock P key2 ∧ msg = msg2) := by
  rw [hmacSHA256_eq_outer, hmacSHA256_eq_outer] at h
  by_cases hO : hmacOuter P key msg = hmacOuter P key2 msg2
  · have hlen : (xorPad 0x5c (hmacKeyBlock P key)).length =
        (xorPad 0x5c (hmacKeyBlock P key2)).length := by
      rw [xorPad_length, xorPad_length, hmacKeyBlock_length, hmacKeyBlock_length]
    obtain ⟨h1, h2⟩ := List.append_inj hO hlen
    have hk : hmacKeyBlock P key = hmacKeyBlock P key2 := xorPad_outer_injective _ _ h1
    by_cases hI : hmacInner P key msg = hmacInner P key2 msg2
    · right
      refine ⟨hk, ?_⟩
      unfold hmacInner at hI
      rw [hk] at hI
      exact List.append_cancel_left hI
    · left; left; exact ⟨hI, h2⟩
  · left; right; exact ⟨hO, h⟩

theorem hmacSHA256_eq_cases_digest (P : Prims) (key msg key2 msg2 : Str)
    (hk : key.length = 32) (hk2 : key2.length = 32)
    (h : hmacSHA256 P key msg = hmacSHA256 P key2 msg2) :
    hmacCollides P key msg key2 msg2 ∨ (key = key2 ∧ msg = msg2) := by
  rcases hmacSHA256_eq_cases P key msg key2 msg2 h with hc | ⟨hb, hm⟩
  · exact Or.inl hc
  · right
    rw [hmacKeyBlock_digest P key hk, hmacKeyBlock_digest P key2 hk2] at hb
    exact ⟨List.append_cancel_right hb, hm⟩

theorem signingKey_eq_cases (P : Prims) (s d n v s2 d2 n2 v2 : Str)
    (h : hmacSHA256 P (hmacSHA256 P (hmacSHA256 P (hmacSHA256 P (str "AWS4" ++ s) d) n) v)
        (str "aws4_request") =
      hmacSHA256 P (hmacSHA256 P (hmacSHA256 P (hmacSHA256 P (str "AWS4" ++ s2) d2) n2) v2)
        (str "aws4_request")) :
    chainCollides P s d n v s2 d2 n2 v2 ∨
      (hmacKeyBlock P (str "AWS4" ++ s) = hmacKeyBlock P (str "AWS4" ++ s2) ∧
        d = d2 ∧ n = n2 ∧ v = v2) := by
  unfold chainCollides
  rcases hmacSHA256_eq_cases_digest P _ _ _ _ (hmacSHA256_length _ _ _) (hmacSHA256_length _ _ _) h
    with h4 | ⟨h3, _⟩
  · exact Or.inl (Or.inr (Or.inr (Or.inr h4)))
  rcases hmacSHA256_eq_cases_digest P _ _ _ _ (hmacSHA256_length _ _ _) (hmacSHA256_length _ _ _) h3
    with h3c | ⟨h2, hv⟩
  · exact Or.inl (Or.inr (Or.inr (Or.inl h3c)))
  rcases hmacSHA256_eq_cases_digest P _ _ _ _ (hmacSHA256_length _ _ _) (hmacSHA256_length _ _ _) h2
    with h2c | ⟨h1, hn⟩
  · exact Or.inl (Or.inr (Or.inl h2c))
  rcases hmacSHA256_eq_cases P _ _ _ _ h1 with h1c | ⟨hb, hd⟩
  · exact Or.inl (Or.inl h1c)
  · exact Or.inr ⟨hb, hd, hn, hv⟩

theorem signingKey_of_keyBlock (P : Prims) (s d n v s2 : Str)
    (hb : hmacKeyBlock P (str "AWS4" ++ s) = hmacKeyBlock P (str "AWS4" ++ s2)) :
    hmacSHA256 P (hmacSHA256 P (hmacSHA256 P (hmacSHA256 P (str "AWS4" ++ s) d) n) v)
        (str "aws4_request") =
      hmacSHA256 P (hmacSHA256 P (hmacSHA256 P (hmacSHA256 P (str "AWS4" ++ s2) d) n) v)
        (str "aws4_request") := by
  have h1 : hmacSHA256 P (str "AWS4" ++ s) d = hmacSHA256 P (str "AWS4" ++ s2) d := by
    rw [hmacSHA256_eq_outer, hmacSHA256_eq_outer]
    unfold hmacOuter hmacInner
    rw [hb]
  rw [h1]

/-- C14, counterexample: the secrets `""` and `"\x00"` differ, and for every
SHA-256, time, region and service they give the same signing key, because HMAC
pads a short key with zero bytes. -/
theorem NewSignature_secret_collision :
    ∃ k k2 : Keys, k.Secret ≠ k2.Secret ∧
      ∀ (P : Prims) (t : Time) (r : Region) (service : Str),
        (NewSignature P k t r service).bytes = (NewSignature P k2 t r service).bytes := by
  refine ⟨⟨[], []⟩, ⟨[], [0]⟩, by decide, ?_⟩
  intro P t r service
  have hb : hmacKeyBlock P (str "AWS4" ++ ([] : Str)) = hmacKeyBlock P (str "AWS4" ++ [0]) := by
    rw [List.append_nil]
    exact (hmacKeyBlock_trailing_zero P (str "AWS4") (by decide)).symm
  exact signingKey_of_keyBlock P [] (formatShort t) r.Name service [0] hb

/-- C14, amended: the signing key is a function of the secret, the date
`t.Format("20060102")`, the region name and the service: equal values give
equal keys, and so do two secrets with the same HMAC key block, such as a
secret and the secret with one more zero byte.  Two derivations that return
the same key agree on the date, the region name and the service and have the
same HMAC key block for `"AWS4" ++ secret`, unless SHA-256 collides on two
messages hashed in the two chains. -/
theorem NewSignature_sensitivity (P : Prims) (k k2 : Keys) (t t2 : Time) (r r2 : Region)
    (service service2 : Str) :
    (k.Secret = k2.Secret → formatShort t = formatShort t2 → r.Name = r2.Name →
      service = service2 →
      (NewSignature P k t r service).bytes = (NewSignature P k2 t2 r2 service2).bytes) ∧
    (hmacKeyBlock P (str "AWS4" ++ k.Secret) = hmacKeyBlock P (str "AWS4" ++ k2.Secret) →
      formatShort t = formatShort t2 → r.Name = r2.Name → service = service2 →
      (NewSignature P k t r service).bytes = (NewSignature P k2 t2 r2 service2).bytes) ∧
    ((str "AWS4" ++ k.Secret).length < 64 → k2.Secret = k.Secret ++ [0] →
      hmacKeyBlock P (str "AWS4" ++ k.Secret) = hmacKeyBlock P (str "AWS4" ++ k2.Secret)) ∧
    ((NewSignature P k t r service).bytes = (NewSignature P k2 t2 r2 service2).bytes →
      chainCollides P k.Secret (formatShort t) r.Name service
          k2.Secret (formatShort t2) r2.Name service2 ∨
        (hmacKeyBlock P (str "AWS4" ++ k.Secret) = hmacKeyBlock P (str "AWS4" ++ k2.Secret) ∧
          formatShort t = formatShort t2 ∧ r.Name = r2.Name ∧ service = service2)) := by
  have hkb : hmacKeyBlock P (str "AWS4" ++ k.Secret) = hmacKeyBlock P (str "AWS4" ++ k2.Secret) →
      formatShort t = formatShort t2 → r.Name = r2.Name → service = service2 →
      (NewSignature P k t r service).bytes = (NewSignature P k2 t2 r2 service2).bytes := by
    intro hb hd hn hv
    have h0 : (NewSignature P k t r service).bytes =
        hmacSHA256 P (hmacSHA256 P (hmacSHA256 P (hmacSHA256 P (str "AWS4" ++ k.Secret)
          (formatShort t)) r.Name) service) (str "aws4_request") := rfl
    rw [h0, hd, hn, hv]
    exact signingKey_of_keyBlock P k.Secret (formatShort t2) r2.Name service2 k2.Secret hb
  refine ⟨fun hs => hkb (by rw [hs]), hkb, ?_, ?_⟩
  · intro hlen hs
    rw [hs, ← List.append_assoc]
    exact (hmacKeyBlock_trailing_zero P _ hlen).symm
  · intro h
    exact signingKey_eq_cases P _ _ _ _ _ _ _ _ h

/-! ## The tree hash -/

theorem chunksLoop_flatten (size : Nat) : ∀ (fuel : Nat) (data : Str),
    (chunksLoop size fuel data).flatten = data := by
  intro fuel
  induction fuel with
  | zero => intro data; simp [chunksLoop]
  | succ fuel ih =>
    intro data
    rw [chunksLoop]
    split
    · simp
    · rw [List.flatten_cons, ih, List.take_append_drop]

theorem chunksLoop_ne_nil (size fuel : Nat) (data : Str) : chunksLoop size fuel data ≠ [] := by
  cases fuel with
  | zero => simp [chunksLoop]
  | succ fuel => rw [chunksLoop]; split <;> simp

theorem chunksLoop_of_le (size fuel : Nat) (data : Str) (h : data.length ≤ size) :
    chunksLoop size fuel data = [data] := by
  cases fuel with
  | zero => rfl
  | succ fuel => rw [chunksLoop, if_pos h]

theorem chunksLoop_sizes (size : Nat) (hs : 0 < size) : ∀ (fuel : Nat) (data : Str),
    data.length ≤ fuel →
    (∀ c ∈ (chunksLoop size fuel data).dropLast, c.length = size) ∧
    (∀ c ∈ chunksLoop size fuel data, c.length ≤ size) ∧
    (data ≠ [] → ∀ c ∈ chunksLoop size fuel data, c ≠ []) := by
  intro fuel
  induction fuel with
  | zero =>
    intro data hd
    have : data = [] := List.length_eq_zero.mp (by omega)
    subst this
    simp [chunksLoop]
  | succ fuel ih =>
    intro data hd
    rw [chunksLoop]
    by_cases hle : data.length ≤ size
    · rw [if_pos hle]
      refine ⟨by simp, by simpa using hle, ?_⟩
      intro hne c hc
      rw [List.mem_singleton] at hc
      rw [hc]; exact hne
    · rw [if_neg hle]
      have hdrop : (data.drop size).length ≤ fuel := by
        rw [List.length_drop]; omega
      have hdne : data.drop size ≠ [] := by
        intro e
        have := congrArg List.length e
        rw [List.length_drop] at this
        simp at this
        omega
      have htake : (data.take size).length = size := by
        rw [List.length_take]; omega
      obtain ⟨h1, h2, h3⟩ := ih (data.drop size) hdrop
      refine ⟨?_, ?_, ?_⟩
      · intro c hc
        rw [List.dropLast_cons_of_ne_nil (chunksLoop_ne_nil _ _ _)] at hc
        rcases List.mem_cons.mp hc with hc | hc
        · rw [hc]; exact htake
        · exact h1 c hc
      · intro c hc
        rcases List.mem_cons.mp hc with hc | hc
        · rw [hc, htake]
        · exact h2 c hc
      · intro _ c hc
        rcases List.mem_cons.mp hc with hc | hc
        · rw [hc]; intro e
          have := congrArg List.length e
          rw [htake] at this
          simp at this
          omega
        · exact h3 hdne c hc

theorem pairLevel_length (P : Prims) : ∀ (n : Nat) (level : List Str), level.length ≤ n →
    (pairLevel P level).length = (level.length + 1) / 2 := by
  intro n
  induction n using Nat.strong_induction_on with
  | _ n ih =>
    intro level hn
    match level with
    | [] => rfl
    | [a] => simp [pairLevel]
    | a :: b :: rest =>
      rw [pairLevel]
      simp only [List.length_cons]
      rw [ih rest.length (by simp only [List.length_cons] at hn; omega) rest (le_refl _)]
      omega

theorem pairLevel_digests (P : Prims) : ∀ (n : Nat) (level : List Str), level.length ≤ n →
    (∀ x ∈ level, x.length = 32) → ∀ x ∈ pairLevel P level, x.length = 32 := by
  intro n
  induction n using Nat.strong_induction_on with
  | _ n ih =>
    intro level hn hall
    match level with
    | [] => intro x hx; simp [pairLevel] at hx
    | [a] => exact hall
    | a :: b :: rest =>
      rw [pairLevel]
      intro x hx
      rcases List.mem_cons.mp hx with hx | hx
      · rw [hx]; exact P.sha256_size _
      · exact ih rest.length (by simp only [List.length_cons] at hn; omega) rest (le_refl _)
          (fun y hy => hall y (by simp [hy])) x hx

theorem reduceLevels_spec (P : Prims) : ∀ (fuel : Nat) (level : List Str),
    level ≠ [] → level.length ≤ fuel + 1 →
    ∃ (root : Str) (rounds : Nat),
      reduceLevels P fuel level = [root] ∧
      (pairLevel P)^[rounds] level = [root] ∧
      ∀ j < rounds, 1 < ((pairLevel P)^[j] level).length := by
  intro fuel
  induction fuel with
  | zero =>
    intro level hne hlen
    match level, hne, hlen with
    | [a], _, _ => exact ⟨a, 0, rfl, rfl, fun j hj => absurd hj (Nat.not_lt_zero j)⟩
    | _ :: _ :: _, _, hlen => simp at hlen
  | succ fuel ih =>
    intro level hne hlen
    rw [reduceLevels]
    by_cases h1 : level.length ≤ 1
    · rw [if_pos h1]
      match level, hne, h1 with
      | [a], _, _ => exact ⟨a, 0, rfl, rfl, fun j hj => absurd hj (Nat.not_lt_zero j)⟩
      | _ :: _ :: _, _, h1 => simp at h1
    · rw [if_neg h1]
      have hpl := pairLevel_length P level.length level (le_refl _)
      have hne2 : pairLevel P level ≠ [] := by
        intro e
        rw [e] at hpl
        simp at hpl
        omega
      obtain ⟨root, rounds, hr, hit, hmin⟩ := ih (pairLevel P level) hne2 (by rw [hpl]; omega)
      refine ⟨root, rounds + 1, hr, ?_, ?_⟩
      · rw [Function.iterate_succ_apply]; exact hit
      · intro j hj
        cases j with
        | zero => simp only [Function.iterate_zero, id_eq]; omega
        | succ j =>
          rw [Function.iterate_succ_apply]
          exact hmin j (by omega)

theorem iterate_pairLevel_digests (P : Prims) (rounds : Nat) : ∀ (level : List Str),
    (∀ x ∈ level, x.length = 32) → ∀ x ∈ (pairLevel P)^[rounds] level, x.length = 32 := by
  induction rounds with
  | zero => intro level h; exact h
  | succ rounds ih =>
    intro level h
    rw [Function.iterate_succ_apply]
    exact ih _ (pairLevel_digests P level.length level (le_refl _) h)


theorem chunksLoop_fuel (size : Nat) (hs : 0 < size) : ∀ (fuel fuel2 : Nat) (data : Str),
    data.length ≤ fuel → data.length ≤ fuel2 →
    chunksLoop size fuel data = chunksLoop size fuel2 data := by
  intro fuel
  induction fuel with
  | zero =>
    intro fuel2 data h _
    have hle : data.length ≤ size := by omega
    rw [chunksLoop_of_le _ _ _ hle, chunksLoop_of_le _ _ _ hle]
  | succ fuel ih =>
    intro fuel2 data h h2
    by_cases hle : data.length ≤ size
    · rw [chunksLoop_of_le _ _ _ hle, chunksLoop_of_le _ _ _ hle]
    · cases fuel2 with
      | zero => omega
      | succ fuel2 =>
        rw [chunksLoop, chunksLoop, if_neg hle, if_neg hle]
        rw [ih fuel2 (data.drop size) (by rw [List.length_drop]; omega)
          (by rw [List.length_drop]; omega)]

theorem chunks_append (size : Nat) (hs : 0 < size) (a rest : Str) (ha : a.length = size)
    (hr : rest ≠ []) : chunks size (a ++ rest) = a :: chunks size rest := by
  have hpos : 0 < rest.length := List.length_pos.mpr hr
  have hlen : (a ++ rest).length = (size + rest.length - 1) + 1 := by
    rw [List.length_append, ha]; omega
  have hnle : ¬ (a ++ rest).length ≤ size := by
    rw [List.length_append, ha]; omega
  unfold chunks
  rw [hlen, chunksLoop, if_neg hnle]
  subst ha
  rw [List.take_left, List.drop_left]
  rw [chunksLoop_fuel a.length hs (a.length + rest.length - 1) rest.length rest (by omega) (le_refl _)]

theorem aBytes_length (n : Nat) : (aBytes n).length = n := List.length_replicate _ _

theorem aBytes_add (m n : Nat) : aBytes (m + n) = aBytes m ++ aBytes n := by
  unfold aBytes
  exact (List.append_replicate_replicate).symm

theorem aBytes_ne_nil (n : Nat) (h : 0 < n) : aBytes n ≠ [] := by
  intro e
  have := congrArg List.length e
  rw [aBytes_length] at this
  simp at this
  omega

theorem MiB_pos : 0 < MiB := by decide

theorem chunks_one (data : Str) (h : data.length ≤ MiB) : chunks MiB data = [data] :=
  chunksLoop_of_le MiB _ data h

theorem chunks_aBytes_append (k : Nat) (tail : Str) (ht : tail ≠ []) :
    chunks MiB (aBytes (k * MiB) ++ tail) = List.replicate k (aBytes MiB) ++ chunks MiB tail := by
  induction k with
  | zero =>
    rw [Nat.zero_mul]
    rfl
  | succ k ih =>
    have h1 : (k + 1) * MiB = MiB + k * MiB := by rw [Nat.succ_mul, Nat.add_comm]
    rw [h1, aBytes_add, List.append_assoc,
      chunks_append MiB MiB_pos (aBytes MiB) _ (aBytes_length MiB)
        (fun e => ht (List.append_eq_nil.mp e).2), ih]
    rfl

theorem chunks_aBytes (k : Nat) (hk : 0 < k) :
    chunks MiB (aBytes (k * MiB)) = List.replicate k (aBytes MiB) := by
  obtain ⟨j, rfl⟩ : ∃ j, k = j + 1 := ⟨k - 1, by omega⟩
  have h1 : (j + 1) * MiB = j * MiB + MiB := Nat.succ_mul j MiB
  rw [h1, aBytes_add, chunks_aBytes_append j _ (aBytes_ne_nil MiB MiB_pos),
    chunks_one _ (le_of_eq (aBytes_length MiB))]
  exact (List.replicate_succ' _ _).symm

theorem pairLevel_get (P : Prims) : ∀ (level : List Str) (i : Nat) (a : Str),
    level[2 * i]? = some a →
    (∀ b : Str, level[2 * i + 1]? = some b →
      (pairLevel P level)[i]? = some (P.sha256 (toHex a ++ toHex b))) ∧
    (level[2 * i + 1]? = none → (pairLevel P level)[i]? = some a)
  | [], i, a, h => by simp at h
  | [x], 0, a, h => by
    simp only [Nat.mul_zero, List.getElem?_cons_zero, Option.some.injEq] at h
    subst h
    simp [pairLevel]
  | [x], i + 1, a, h => by
    have : 2 * (i + 1) = (2 * i + 1) + 1 := by omega
    rw [this] at h
    simp at h
  | x :: y :: rest, 0, a, h => by
    simp only [Nat.mul_zero, List.getElem?_cons_zero, Option.some.injEq] at h
    subst h
    simp [pairLevel]
  | x :: y :: rest, i + 1, a, h => by
    have e1 : 2 * (i + 1) = (2 * i) + 1 + 1 := by omega
    have e2 : 2 * (i + 1) + 1 = (2 * i + 1) + 1 + 1 := by omega
    rw [e1] at h
    rw [e2, pairLevel]
    simp only [List.getElem?_cons_succ] at h ⊢
    exact pairLevel_get P rest i a h

theorem pairLevel_singleton_iterate (P : Prims) (a : Str) (k : Nat) :
    (pairLevel P)^[k] [a] = [a] := by
  induction k with
  | zero => rfl
  | succ k ih => rw [Function.iterate_succ_apply]; exact ih

theorem root_of_iterate (P : Prims) (leaves : List Str) (root : Str) (rounds : Nat)
    (hit : (pairLevel P)^[rounds] leaves = [root])
    (hmin : ∀ j < rounds, 1 < ((pairLevel P)^[j] leaves).length)
    (k : Nat) (v : Str) (hk : (pairLevel P)^[k] leaves = [v]) : root = v := by
  have hle : rounds ≤ k := by
    by_contra hlt
    have := hmin k (by omega)
    rw [hk] at this
    simp at this
  obtain ⟨d, rfl⟩ : ∃ d, k = d + rounds := ⟨k - rounds, by omega⟩
  rw [Function.iterate_add_apply, hit, pairLevel_singleton_iterate] at hk
  injection hk

theorem createTreeHash_of_leaves (P : Prims) (data : Str) (leaves : List Str) (root : Str)
    (h : (chunks MiB data).map P.sha256 = leaves)
    (hr : reduceLevels P leaves.length leaves = [root]) :
    createTreeHash P (.reads data) = .ok ⟨root⟩ := by
  unfold createTreeHash
  simp only [h, hr]

theorem pinnedSha256_leaf : pinnedSha256 (aBytes MiB) = leafA := by
  unfold pinnedSha256
  rw [if_pos rfl]

theorem pinnedPrims_sha256 : pinnedPrims.sha256 = pinnedSha256 := rfl

theorem pinnedPrims_leaf : pinnedPrims.sha256 (aBytes MiB) = leafA := by
  rw [pinnedPrims_sha256, pinnedSha256_leaf]

set_option maxRecDepth 1000000 in
theorem pinnedPrims_hello : pinnedPrims.sha256 (str "Hello World") =
    fromHex (str "a591a6d40bf420404a011733cfb7b190d62c65bf0bcda32b57b277d9ad9f146e") := by
  decide

theorem leaves_aBytes (k : Nat) (hk : 0 < k) :
    (chunks MiB (aBytes (k * MiB))).map pinnedPrims.sha256 = List.replicate k leafA := by
  rw [chunks_aBytes k hk, List.map_replicate, pinnedPrims_leaf]

theorem leaves_aBytes_hello (k : Nat) :
    (chunks MiB (aBytes (k * MiB) ++ str "Hello World")).map pinnedPrims.sha256 =
      List.replicate k leafA ++
        [fromHex (str "a591a6d40bf420404a011733cfb7b190d62c65bf0bcda32b57b277d9ad9f146e")] := by
  rw [chunks_aBytes_append k _ (by decide), chunks_one _ (by decide), List.map_append,
    List.map_replicate, pinnedPrims_leaf, List.map_singleton, pinnedPrims_hello]

set_option maxRecDepth 1000000 in
theorem rounds_1MiB_hello : (pairLevel pinnedPrims)^[1] (List.replicate 1 leafA ++
      [fromHex (str "a591a6d40bf420404a011733cfb7b190d62c65bf0bcda32b57b277d9ad9f146e")]) =
    [fromHex (str "7a398c79d8fc266cde4766b105d56a49361b22142aaa35a22ef505660c7edf59")] := by
  decide

set_option maxRecDepth 1000000 in
theorem rounds_2MiB : (pairLevel pinnedPrims)^[1] (List.replicate 2 leafA) =
    [fromHex (str "3d95be8a6b55f83b93db329b8657ef6e8496361cb7b9a882b263fb2fb6197564")] := by
  decide

set_option maxRecDepth 1000000 in
theorem rounds_3MiB : (pairLevel pinnedPrims)^[2] (List.replicate 3 leafA) =
    [fromHex (str "d96d417c167a3bef2eaab2e637095834c2023e867f8287b6e5aa4da66eb0a555")] := by
  decide

set_option maxRecDepth 1000000 in
theorem rounds_2MiB_hello : (pairLevel pinnedPrims)^[2] (List.replicate 2 leafA ++
      [fromHex (str "a591a6d40bf420404a011733cfb7b190d62c65bf0bcda32b57b277d9ad9f146e")]) =
    [fromHex (str "7cf44f7e83180f709ad6f8376dd704609d28a117f3a1878c301bc9e78c870344")] := by
  decide

set_option maxRecDepth 1000000 in
theorem rounds_4MiB : (pairLevel pinnedPrims)^[2] (List.replicate 4 leafA) =
    [fromHex (str "ab7404d312438a79f8164a6714f2b7aa42b52fbfc8f3b2db62b372b182fc6619")] := by
  decide

set_option maxRecDepth 1000000 in
theorem rounds_5MiB : (pairLevel pinnedPrims)^[3] (List.replicate 5 leafA) =
    [fromHex (str "ede4a38ec783a37bd243daa9693fbabaaf7ea2a370a511a72b02aaa8bfe0dda6")] := by
  decide

set_option maxRecDepth 1000000 in
theorem rounds_7MiB : (pairLevel pinnedPrims)^[3] (List.replicate 7 leafA) =
    [fromHex (str "3ff5623fb1ab0ef60adab85d698aa03560d24890e51d7d69d3296dccfb774ac7")] := by
  decide

set_option maxRecDepth 1000000 in
theorem raw_2MiB : pinnedPrims.sha256 (leafA ++ leafA) =
    fromHex (str "560c2c9333c719cb00cfdffee3ba293db17f58743cdd1f7e4055373ae6300afa") := by
  decide

set_option maxRecDepth 1000000 in
theorem toHex_fromHex_vectors :
    toHex (fromHex (str "a591a6d40bf420404a011733cfb7b190d62c65bf0bcda32b57b277d9ad9f146e")) =
      str "a591a6d40bf420404a011733cfb7b190d62c65bf0bcda32b57b277d9ad9f146e" ∧
    toHex leafA = str "9bc1b2a288b26af7257a36277ae3816a7d4f16e89c1e7e77d0a5c48bad62b360" ∧
    toHex (fromHex (str "7a398c79d8fc266cde4766b105d56a49361b22142aaa35a22ef505660c7edf59")) =
      str "7a398c79d8fc266cde4766b105d56a49361b22142aaa35a22ef505660c7edf59" ∧
    toHex (fromHex (str "3d95be8a6b55f83b93db329b8657ef6e8496361cb7b9a882b263fb2fb6197564")) =
      str "3d95be8a6b55f83b93db329b8657ef6e8496361cb7b9a882b263fb2fb6197564" ∧
    toHex (fromHex (str "d96d417c167a3bef2eaab2e637095834c2023e867f8287b6e5aa4da66eb0a555")) =
      str "d96d417c167a3bef2eaab2e637095834c2023e867f8287b6e5aa4da66eb0a555" ∧
    toHex (fromHex (str "7cf44f7e83180f709ad6f8376dd704609d28a117f3a1878c301bc9e78c870344")) =
      str "7cf44f7e83180f709ad6f8376dd704609d28a117f3a1878c301bc9e78c870344" ∧
    toHex (fromHex (str "ab7404d312438a79f8164a6714f2b7aa42b52fbfc8f3b2db62b372b182fc6619")) =
      str "ab7404d312438a79f8164a6714f2b7aa42b52fbfc8f3b2db62b372b182fc6619" ∧
    toHex (fromHex (str "ede4a38ec783a37bd243daa9693fbabaaf7ea2a370a511a72b02aaa8bfe0dda6")) =
      str "ede4a38ec783a37bd243daa9693fbabaaf7ea2a370a511a72b02aaa8bfe0dda6" ∧
    toHex (fromHex (str "3ff5623fb1ab0ef60adab85d698aa03560d24890e51d7d69d3296dccfb774ac7")) =
      str "3ff5623fb1ab0ef60adab85d698aa03560d24890e51d7d69d3296dccfb774ac7" := by
  decide

/-- C17 (amended): for every stream that reads to its end, `createTreeHash`
returns the root digest of the level-by-level construction: the stream is cut
into consecutive chunks of 1,048,576 bytes, the last one possibly shorter; each
chunk is hashed with SHA-256; a round replaces the adjacent pairs of a level,
left to right, by the SHA-256 of the 128 lowercase hexadecimal characters of
the two digests (the hex of the left digest, then the hex of the right one) and
carries an unpaired last digest up unchanged; rounds are repeated until one
digest, the root, remains; every digest on the way has 32 bytes; and for a
stream of at most one chunk the root is the SHA-256 of the stream. -/
theorem createTreeHash_spec (P : Prims) (data : Str) :
    ∃ (root : Str) (rounds : Nat),
      createTreeHash P (.reads data) = .ok ⟨root⟩ ∧
      (chunks MiB data).flatten = data ∧
      chunks MiB data ≠ [] ∧
      (∀ c ∈ (chunks MiB data).dropLast, c.length = 1048576) ∧
      (∀ c ∈ chunks MiB data, c.length ≤ 1048576) ∧
      (data ≠ [] → ∀ c ∈ chunks MiB data, c ≠ []) ∧
      (pairLevel P)^[rounds] ((chunks MiB data).map P.sha256) = [root] ∧
      (∀ j < rounds, 1 < ((pairLevel P)^[j] ((chunks MiB data).map P.sha256)).length) ∧
      (∀ level : List Str, (pairLevel P level).length = (level.length + 1) / 2) ∧
      (∀ (level : List Str) (i : Nat) (a b : Str),
        level[2 * i]? = some a → level[2 * i + 1]? = some b →
        (pairLevel P level)[i]? = some (P.sha256 (toHex a ++ toHex b))) ∧
      (∀ (level : List Str) (i : Nat) (a : Str),
        level[2 * i]? = some a → level[2 * i + 1]? = none →
        (pairLevel P level)[i]? = some a) ∧
      (∀ a b : Str, a.length = 32 → b.length = 32 →
        (toHex a ++ toHex b).length = 128 ∧ ∀ c ∈ toHex a ++ toHex b, isLowerHex c) ∧
      (∀ (j : Nat), ∀ x ∈ (pairLevel P)^[j] ((chunks MiB data).map P.sha256), x.length = 32) ∧
      root.length = 32 ∧
      (data.length ≤ 1048576 → root = P.sha256 data) := by
  have hne : (chunks MiB data).map P.sha256 ≠ [] := by
    simpa using chunksLoop_ne_nil MiB data.length data
  obtain ⟨root, rounds, hr, hit, hmin⟩ :=
    reduceLevels_spec P ((chunks MiB data).map P.sha256).length _ hne (Nat.le_succ _)
  obtain ⟨h1, h2, h3⟩ := chunksLoop_sizes MiB (by decide) data.length data (le_refl _)
  have hroot : root ∈ (pairLevel P)^[rounds] ((chunks MiB data).map P.sha256) := by
    rw [hit]; exact List.mem_singleton_self root
  have hleaves : ∀ x ∈ (chunks MiB data).map P.sha256, x.length = 32 := by
    intro x hx
    rw [List.mem_map] at hx
    obtain ⟨c, _, rfl⟩ := hx
    exact P.sha256_size c
  have hall : ∀ (j : Nat), ∀ x ∈ (pairLevel P)^[j] ((chunks MiB data).map P.sha256),
      x.length = 32 := fun j => iterate_pairLevel_digests P j _ hleaves
  refine ⟨root, rounds, ?_, chunksLoop_flatten _ _ _, chunksLoop_ne_nil _ _ _, h1, h2, h3, hit,
    hmin, fun level => pairLevel_length P level.length level (le_refl _),
    fun level i a b ha hb => (pairLevel_get P level i a ha).1 b hb,
    fun level i a ha hb => (pairLevel_get P level i a ha).2 hb, ?_, hall,
    hall rounds root hroot, ?_⟩
  · unfold createTreeHash
    simp only [hr]
  · intro a b ha hb
    refine ⟨?_, ?_⟩
    · rw [List.length_append]
      unfold toHex
      rw [hexLower_length, hexLower_length, ha, hb]
    · intro c hc
      unfold toHex at hc
      rcases List.mem_append.mp hc with hc | hc
      · exact hexLower_isLowerHex _ c hc
      · exact hexLower_isLowerHex _ c hc
  · intro hle
    have hc : chunks MiB data = [data] := chunksLoop_of_le MiB _ data hle
    rw [hc] at hr
    have : reduceLevels P ([data].map P.sha256).length ([data].map P.sha256) = [P.sha256 data] := rfl
    rw [this] at hr
    injection hr with hr
    exact hr.symm

set_option maxRecDepth 1000000 in
theorem sha256Ref_hello : toHex (sha256Ref (str "Hello World")) =
    str "a591a6d40bf420404a011733cfb7b190d62c65bf0bcda32b57b277d9ad9f146e" := by
  decide

/-- C17, counterexample: 2 MiB of the byte `a` are two chunks with the same
digest, and the root is the SHA-256 of the 128 hexadecimal characters of the
two digests, not of their 64 bytes.  With the digest of the chunk that
`TestTreeHash` states, `createTreeHash` returns `3d95be8a...`, the root of the
test's fourth case, and the SHA-256 of the 64-byte concatenation is
`560c2c93...`. -/
theorem createTreeHash_two_chunks_not_raw :
    chunks MiB (aBytes (2 * MiB)) = [aBytes MiB, aBytes MiB] ∧
    (∀ P : Prims, createTreeHash P (.reads (aBytes (2 * MiB))) =
      .ok ⟨P.sha256 (toHex (P.sha256 (aBytes MiB)) ++ toHex (P.sha256 (aBytes MiB)))⟩) ∧
    (∀ P : Prims,
      (toHex (P.sha256 (aBytes MiB)) ++ toHex (P.sha256 (aBytes MiB))).length = 128 ∧
      (P.sha256 (aBytes MiB) ++ P.sha256 (aBytes MiB)).length = 64) ∧
    createTreeHash pinnedPrims (.reads (aBytes (2 * MiB))) =
      .ok ⟨fromHex (str "3d95be8a6b55f83b93db329b8657ef6e8496361cb7b9a882b263fb2fb6197564")⟩ ∧
    pinnedPrims.sha256 (pinnedPrims.sha256 (aBytes MiB) ++ pinnedPrims.sha256 (aBytes MiB)) =
      fromHex (str "560c2c9333c719cb00cfdffee3ba293db17f58743cdd1f7e4055373ae6300afa") ∧
    createTreeHash pinnedPrims (.reads (aBytes (2 * MiB))) ≠
      .ok ⟨pinnedPrims.sha256
        (pinnedPrims.sha256 (aBytes MiB) ++ pinnedPrims.sha256 (aBytes MiB))⟩ := by
  have hch : chunks MiB (aBytes (2 * MiB)) = [aBytes MiB, aBytes MiB] :=
    chunks_aBytes 2 (by decide)
  have hgen : ∀ P : Prims, createTreeHash P (.reads (aBytes (2 * MiB))) =
      .ok ⟨P.sha256 (toHex (P.sha256 (aBytes MiB)) ++ toHex (P.sha256 (aBytes MiB)))⟩ := by
    intro P
    refine createTreeHash_of_leaves P _ [P.sha256 (aBytes MiB), P.sha256 (aBytes MiB)] _ ?_ rfl
    rw [hch]
    rfl
  have hval : createTreeHash pinnedPrims (.reads (aBytes (2 * MiB))) =
      .ok ⟨fromHex (str "3d95be8a6b55f83b93db329b8657ef6e8496361cb7b9a882b263fb2fb6197564")⟩ := by
    refine createTreeHash_of_leaves pinnedPrims _ (List.replicate 2 leafA) _
      (leaves_aBytes 2 (by decide)) ?_
    exact rounds_2MiB
  have hraw : pinnedPrims.sha256
      (pinnedPrims.sha256 (aBytes MiB) ++ pinnedPrims.sha256 (aBytes MiB)) =
      fromHex (str "560c2c9333c719cb00cfdffee3ba293db17f58743cdd1f7e4055373ae6300afa") := by
    rw [pinnedPrims_leaf]
    exact raw_2MiB
  refine ⟨hch, hgen, ?_, hval, hraw, ?_⟩
  · intro P
    refine ⟨?_, ?_⟩
    · rw [List.length_append]
      unfold toHex
      rw [hexLower_length, P.sha256_size]
    · rw [List.length_append, P.sha256_size]
  · rw [hval, hraw]
    decide

/-- C17, witness: the nine cases of `TestTreeHash`.  `Hello World` is hashed
with SHA-256 as FIPS 180-4 defines it; in the cases of 1 MiB and more the
digest of a chunk of 1 MiB of `a` is the one the second case states, and every
combining step is computed. -/
theorem createTreeHash_vectors :
    (∃ tree, createTreeHash refPrims (.reads (str "Hello World")) = .ok tree ∧
      toHex tree.Hash = str "a591a6d40bf420404a011733cfb7b190d62c65bf0bcda32b57b277d9ad9f146e") ∧
    (∃ tree, createTreeHash pinnedPrims (.reads (aBytes (1 * MiB))) = .ok tree ∧
      toHex tree.Hash = str "9bc1b2a288b26af7257a36277ae3816a7d4f16e89c1e7e77d0a5c48bad62b360") ∧
    (∃ tree, createTreeHash pinnedPrims (.reads (aBytes (1 * MiB) ++ str "Hello World")) =
        .ok tree ∧
      toHex tree.Hash = str "7a398c79d8fc266cde4766b105d56a49361b22142aaa35a22ef505660c7edf59") ∧
    (∃ tree, createTreeHash pinnedPrims (.reads (aBytes (2 * MiB))) = .ok tree ∧
      toHex tree.Hash = str "3d95be8a6b55f83b93db329b8657ef6e8496361cb7b9a882b263fb2fb6197564") ∧
    (∃ tree, createTreeHash pinnedPrims (.reads (aBytes (3 * MiB))) = .ok tree ∧
      toHex tree.Hash = str "d96d417c167a3bef2eaab2e637095834c2023e867f8287b6e5aa4da66eb0a555") ∧
    (∃ tree, createTreeHash pinnedPrims (.reads (aBytes (2 * MiB) ++ str "Hello World")) =
        .ok tree ∧
      toHex tree.Hash = str "7cf44f7e83180f709ad6f8376dd704609d28a117f3a1878c301bc9e78c870344") ∧
    (∃ tree, createTreeHash pinnedPrims (.reads (aBytes (4 * MiB))) = .ok tree ∧
      toHex tree.Hash = str "ab7404d312438a79f8164a6714f2b7aa42b52fbfc8f3b2db62b372b182fc6619") ∧
    (∃ tree, createTreeHash pinnedPrims (.reads (aBytes (5 * MiB))) = .ok tree ∧
      toHex tree.Hash = str "ede4a38ec783a37bd243daa9693fbabaaf7ea2a370a511a72b02aaa8bfe0dda6") ∧
    (∃ tree, createTreeHash pinnedPrims (.reads (aBytes (7 * MiB))) = .ok tree ∧
      toHex tree.Hash =
        str "3ff5623fb1ab0ef60adab85d698aa03560d24890e51d7d69d3296dccfb774ac7") := by
  have key : ∀ (data : Str) (leaves : List Str) (k : Nat) (v : Str),
      (chunks MiB data).map pinnedPrims.sha256 = leaves →
      (pairLevel pinnedPrims)^[k] leaves = [v] →
      createTreeHash pinnedPrims (.reads data) = .ok ⟨v⟩ := by
    intro data leaves k v hl hk
    obtain ⟨root, rounds, h1, _, _, _, _, _, hit, hmin, _⟩ := createTreeHash_spec pinnedPrims data
    rw [h1, root_of_iterate pinnedPrims _ root rounds hit hmin k v (by rw [hl]; exact hk)]
  obtain ⟨t1, t2, t3, t4, t5, t6, t7, t8, t9⟩ := toHex_fromHex_vectors
  refine ⟨?_, ⟨_, key _ _ 0 leafA (leaves_aBytes 1 (by decide)) rfl, t2⟩,
    ⟨_, key _ _ 1 _ (leaves_aBytes_hello 1) rounds_1MiB_hello, t3⟩,
    ⟨_, key _ _ 1 _ (leaves_aBytes 2 (by decide)) rounds_2MiB, t4⟩,
    ⟨_, key _ _ 2 _ (leaves_aBytes 3 (by decide)) rounds_3MiB, t5⟩,
    ⟨_, key _ _ 2 _ (leaves_aBytes_hello 2) rounds_2MiB_hello, t6⟩,
    ⟨_, key _ _ 2 _ (leaves_aBytes 4 (by decide)) rounds_4MiB, t7⟩,
    ⟨_, key _ _ 3 _ (leaves_aBytes 5 (by decide)) rounds_5MiB, t8⟩,
    ⟨_, key _ _ 3 _ (leaves_aBytes 7 (by decide)) rounds_7MiB, t9⟩⟩
  obtain ⟨root, _, h1, _, _, _, _, _, _, _, _, _, _, _, _, _, h15⟩ :=
    createTreeHash_spec refPrims (str "Hello World")
  refine ⟨⟨root⟩, h1, ?_⟩
  rw [h15 (by decide)]
  exact sha256Ref_hello

/-! ## Header maps that hold the same headers -/

theorem sortStrings_eq_of_perm (a b : List Str) (h : a.Perm b) : sortStrings a = sortStrings b :=
  List.eq_of_perm_of_sorted ((sortStrings_perm a).trans (h.trans (sortStrings_perm b).symm))
    (sortStrings_sorted a) (sortStrings_sorted b)

theorem collectHeaders_names (P : Prims) (hdr : Values) :
    (collectHeaders P hdr [] []).1 = (hdr.map Prod.fst).map (fun i => ToLower P (TrimSpace P i)) := by
  rw [collectHeaders_eq, List.map_map]
  rfl

theorem flatMap_eq_of_forall (l : List Str) (f g : Str → Str) (h : ∀ n ∈ l, f n = g n) :
    l.flatMap f = l.flatMap g := by
  induction l with
  | nil => rfl
  | cons n l ih =>
    rw [List.flatMap_cons, List.flatMap_cons, h n (List.mem_cons_self _ _),
      ih (fun m hm => h m (List.mem_cons_of_mem _ hm))]

theorem Values.set_keys (m : Values) (k : Str) (vs : List Str) :
    (m.set k vs).map Prod.fst = m.map Prod.fst := by
  induction m with
  | nil => rfl
  | cons e m ih =>
    have hset : Values.set (e :: m) k vs =
        (if e.1 = k then (e.1, vs) else e) :: Values.set m k vs := by
      simp [Values.set]
    rw [hset, List.map_cons, List.map_cons, ih]
    by_cases h : e.1 = k <;> simp [h]

/-- What the second loop of step 4 leaves of the header map: the same names,
and under every name the values as they were or sorted. -/
theorem headerLines_frame (host : Str) (hm : List (Str × Str)) (hdr0 : Values) (names : List Str) :
    ∀ (crb : Str) (hdr : Values), hdr.map Prod.fst = hdr0.map Prod.fst →
    (∀ k, hdr.get k = hdr0.get k ∨ hdr.get k = sortStrings (hdr0.get k)) →
    (headerLines host hm names crb hdr).2.map Prod.fst = hdr0.map Prod.fst ∧
    ∀ k, (headerLines host hm names crb hdr).2.get k = hdr0.get k ∨
      (headerLines host hm names crb hdr).2.get k = sortStrings (hdr0.get k) := by
  induction names with
  | nil => intro crb hdr hk hv; exact ⟨hk, hv⟩
  | cons n names ih =>
    intro crb hdr hk hv
    rw [headerLines]
    by_cases hn : n = str "host"
    · simp only [hn, if_true]
      exact ih _ _ hk hv
    · simp only [if_neg hn]
      refine ih _ _ (by rw [Values.set_keys]; exact hk) ?_
      intro k
      rw [Values.set_get]
      by_cases hc : k = headersMapGet hm n ∧ headersMapGet hm n ∈ hdr.map Prod.fst
      · rw [if_pos hc, ← hc.1]
        right
        rcases hv k with h | h
        · rw [h]
        · rw [h, sortStrings_idem]
      · rw [if_neg hc]
        exact hv k

/-- After `CreateCanonicalRequest` the header map of the request has the names
it had, and every name has the values it had, in their old order or sorted. -/
theorem headerAfter_frame (P : Prims) (r : Request) :
    (headerAfter P r).map Prod.fst = r.Header.map Prod.fst ∧
    ∀ k, ((headerAfter P r).get k = r.Header.get k ∨
        (headerAfter P r).get k = sortStrings (r.Header.get k)) ∧
      ((headerAfter P r).get k).Perm (r.Header.get k) := by
  have key : (headerAfter P r).map Prod.fst = r.Header.map Prod.fst ∧
      ∀ k, (headerAfter P r).get k = r.Header.get k ∨
        (headerAfter P r).get k = sortStrings (r.Header.get k) := by
    unfold headerAfter runCanonicalRequest
    cases canonicalPath r.Path with
    | fault => exact ⟨rfl, fun _ => Or.inl rfl⟩
    | error e => exact ⟨rfl, fun _ => Or.inl rfl⟩
    | ok cp =>
      cases ParseQuery r.RawQuery with
      | none => exact ⟨rfl, fun _ => Or.inl rfl⟩
      | some query =>
        cases r.Body with
        | absent => exact headerLines_frame _ _ r.Header _ _ _ rfl (fun _ => Or.inl rfl)
        | fails data => exact headerLines_frame _ _ r.Header _ _ _ rfl (fun _ => Or.inl rfl)
        | reads data => exact headerLines_frame _ _ r.Header _ _ _ rfl (fun _ => Or.inl rfl)
  refine ⟨key.1, fun k => ⟨key.2 k, ?_⟩⟩
  rcases key.2 k with h | h
  · rw [h]
  · rw [h]; exact sortStrings_perm _

/-- Two requests that differ in their header maps only get the same result when
the signed header names and the lines of the headers block agree. -/
theorem CreateCanonicalRequest_congr (P : Prims) (r1 r2 : Request)
    (hm : r1.Method = r2.Method) (hp : r1.Path = r2.Path) (hq : r1.RawQuery = r2.RawQuery)
    (hb : r1.Body = r2.Body)
    (hnames : sortStrings ((collectHeaders P r1.Header [] []).1 ++ [str "host"]) =
      sortStrings ((collectHeaders P r2.Header [] []).1 ++ [str "host"]))
    (hvalue : ∀ n ∈ sortStrings ((collectHeaders P r1.Header [] []).1 ++ [str "host"]),
      headerValue r1.Host (collectHeaders P r1.Header [] []).2 r1.Header n =
        headerValue r2.Host (collectHeaders P r2.Header [] []).2 r2.Header n) :
    CreateCanonicalRequest P r1 = CreateCanonicalRequest P r2 := by
  unfold CreateCanonicalRequest runCanonicalRequest
  rw [← hp, ← hq, ← hb, ← hm]
  cases canonicalPath r1.Path with
  | fault => rfl
  | error e => rfl
  | ok cp =>
    cases ParseQuery r1.RawQuery with
    | none => rfl
    | some query =>
      cases r1.Body with
      | absent => rfl
      | fails data => rfl
      | reads data =>
        simp only
        rw [headerLines_eq r1.Host _ r1.Header _ _ r1.Header (fun _ => rfl),
          headerLines_eq r2.Host _ r2.Header _ _ r2.Header (fun _ => rfl), ← hnames,
          flatMap_eq_of_forall _ _ _ (fun n hn => by rw [hvalue n hn])]

/-- Header-order independence where no two header names share their
lowercased, trimmed form: two requests whose header maps hold the same names,
in any order, with the same values per name, in any order, get the same result
from `CreateCanonicalRequest`. -/
theorem CreateCanonicalRequest_header_order_distinct (P : Prims) (r1 r2 : Request)
    (hm : r1.Method = r2.Method) (hp : r1.Path = r2.Path) (hq : r1.RawQuery = r2.RawQuery)
    (hh : r1.Host = r2.Host) (hb : r1.Body = r2.Body)
    (hkeys : (r1.Header.map Prod.fst).Perm (r2.Header.map Prod.fst))
    (hvals : ∀ k, (r1.Header.get k).Perm (r2.Header.get k))
    (hinj : ∀ i ∈ r1.Header.map Prod.fst, ∀ j ∈ r1.Header.map Prod.fst,
      ToLower P (TrimSpace P i) = ToLower P (TrimSpace P j) → i = j) :
    CreateCanonicalRequest P r1 = CreateCanonicalRequest P r2 := by
  have hnames : sortStrings ((collectHeaders P r1.Header [] []).1 ++ [str "host"]) =
      sortStrings ((collectHeaders P r2.Header [] []).1 ++ [str "host"]) := by
    apply sortStrings_eq_of_perm
    rw [collectHeaders_names, collectHeaders_names]
    exact List.Perm.append_right _ (hkeys.map _)
  refine CreateCanonicalRequest_congr P r1 r2 hm hp hq hb hnames ?_
  intro n hn
  unfold headerValue
  by_cases hhost : n = str "host"
  · rw [if_pos hhost, if_pos hhost, hh]
  · rw [if_neg hhost, if_neg hhost]
    rw [mem_sortStrings, collectHeaders_names] at hn
    simp only [List.mem_append, List.mem_singleton, hhost, or_false] at hn
    have hn1 : n ∈ r1.Header.map (fun e => ToLower P (TrimSpace P e.1)) := by
      rw [List.map_map] at hn; exact hn
    have hn2 : n ∈ r2.Header.map (fun e => ToLower P (TrimSpace P e.1)) := by
      have := (hkeys.map (fun i => ToLower P (TrimSpace P i))).mem_iff.mp hn
      rw [List.map_map] at this; exact this
    obtain ⟨pre1, post1, e1, hnorm1, _⟩ := headersMapGet_collect_last P r1.Header n hn1
    obtain ⟨pre2, post2, e2, hnorm2, _⟩ := headersMapGet_collect_last P r2.Header n hn2
    have hi1 : headersMapGet (collectHeaders P r1.Header [] []).2 n ∈ r1.Header.map Prod.fst := by
      rw [e1]; simp
    have hi2 : headersMapGet (collectHeaders P r2.Header [] []).2 n ∈ r1.Header.map Prod.fst := by
      rw [hkeys.mem_iff, e2]; simp
    have hsame := hinj _ hi1 _ hi2 (by rw [hnorm1, hnorm2])
    rw [← hsame, sortStrings_eq_of_perm _ _ (hvals _)]

/-! ## The signed header names -/

/-- The signed header names of every request are in ascending order and hold
`host`; they are the lowercased, trimmed header names and `host`, so no name
occurs twice when the header names have pairwise different lowercased, trimmed
forms, none of them `host`. -/
theorem signedHeaders_sorted (P : Prims) (r : Request) (bytes : Str) (names : List Str)
    (h : CreateCanonicalRequest P r = .ok (bytes, names)) :
    names.Sorted (· ≤ ·) ∧ str "host" ∈ names ∧
    names.Perm ((r.Header.map Prod.fst).map (fun i => ToLower P (TrimSpace P i)) ++ [str "host"]) ∧
    (((r.Header.map Prod.fst).map (fun i => ToLower P (TrimSpace P i))).Nodup →
      str "host" ∉ (r.Header.map Prod.fst).map (fun i => ToLower P (TrimSpace P i)) →
      names.Nodup) := by
  have hnames : names = sortStrings ((collectHeaders P r.Header [] []).1 ++ [str "host"]) := by
    unfold CreateCanonicalRequest runCanonicalRequest at h
    cases hcp : canonicalPath r.Path with
    | fault => rw [hcp] at h; simp at h
    | error e => rw [hcp] at h; simp at h
    | ok cp =>
      cases hq : ParseQuery r.RawQuery with
      | none => rw [hcp, hq] at h; simp at h
      | some query =>
        cases hb : r.Body with
        | absent => rw [hcp, hq, hb] at h; simp at h
        | fails data => rw [hcp, hq, hb] at h; simp at h
        | reads data =>
          rw [hcp, hq, hb] at h
          simp only [Outcome.ok.injEq, Prod.mk.injEq] at h
          exact h.2.symm
  rw [collectHeaders_names] at hnames
  have hperm : names.Perm
      ((r.Header.map Prod.fst).map (fun i => ToLower P (TrimSpace P i)) ++ [str "host"]) := by
    rw [hnames]; exact sortStrings_perm _
  have hmem : str "host" ∈ names :=
    hperm.mem_iff.mpr (List.mem_append_right _ (List.mem_singleton_self _))
  refine ⟨by rw [hnames]; exact sortStrings_sorted _, hmem, hperm, ?_⟩
  intro hnd hhost
  have hnd2 : ((r.Header.map Prod.fst).map (fun i => ToLower P (TrimSpace P i)) ++
      [str "host"]).Nodup := by
    refine List.Nodup.append hnd (List.nodup_singleton _) ?_
    intro a ha hb
    rw [List.mem_singleton] at hb
    rw [hb] at ha
    exact hhost ha
  exact hperm.nodup_iff.mpr hnd2

end Aws
